import Mathlib

/-!
Verification of the Boolean-network state-space analysis core
(`BooleanNetwork.py`, `StateSpaceAnalysisSynchronous.py`,
`AttractorsAsynchronousTarjan.py`).

Modelling conventions:
* Python lists become `List Nat`; a truth table and a parent list are plain
  `List Nat`.
* Python dictionaries keyed by state integers become functions
  `Nat → Option _`; `dict[k] = v` becomes `Function.update m k (some v)` and
  `k in dict` becomes `(m k).isSome`.
* Out-of-range list indexing, which raises `IndexError` in Python, is modelled
  with `List.getD _ _ 0` (default `0`); all theorems about whole-network
  analysis carry a well-formedness hypothesis under which every access the
  Python code performs is in range.
* The unbounded `while` loop of the synchronous analyzer and the recursion of
  Tarjan's `_strongconnect` are modelled with explicit fuel
  (`2 ^ number_of_nodes + 1`); we prove that this fuel is sufficient for every
  well-formed network, so the fuelled functions return `some _` exactly when
  the Python loops terminate normally.
-/

namespace BoolNet

/-- One entry of `BooleanNetwork.transitions`: a pair
`(list of parents, truth table of length 2 ^ number_of_parents)`. -/
abbrev Transition := List Nat × List Nat

/-- The data of `BooleanNetwork` (`BooleanNetwork.py`): a node count and a
transition list. -/
structure BooleanNetwork where
  number_of_nodes : Nat
  transitions : List Transition
deriving Repr, DecidableEq

/-- `BooleanNetwork.__init__` with an explicitly supplied `transitions`
argument (the random branch is out of scope): it merely stores both fields,
performing no check of any kind. -/
def BooleanNetwork.init (number_of_nodes : Nat) (transitions : List Transition) :
    BooleanNetwork :=
  { number_of_nodes := number_of_nodes, transitions := transitions }

/-- `BooleanNetwork.binary_to_int`: little-endian value of a bit list,
`sum over i of binary_list[i] * 2 ^ i`, written as the equivalent structural
recursion (`b + 2 * value of the tail`). -/
def binary_to_int : List Nat → Nat
  | [] => 0
  | b :: bs => b + 2 * binary_to_int bs

/-- The loop of `BooleanNetwork.int_to_binary`, peeling `number % 2` and
dividing by two, once per node. -/
def int_to_binary_go : Nat → Nat → List Nat
  | 0, _ => []
  | n + 1, number => number % 2 :: int_to_binary_go n (number / 2)

/-- `BooleanNetwork.int_to_binary`: the `number_of_nodes` low-order bits of
`number`, little-endian. -/
def BooleanNetwork.int_to_binary (net : BooleanNetwork) (number : Nat) : List Nat :=
  int_to_binary_go net.number_of_nodes number

/-- `BooleanNetwork.compute_next_node_state`: a node with no parents keeps its
current value (the truth table is not consulted); otherwise the truth table is
indexed by the little-endian encoding of the parents' current bits, in
parent-list order. -/
def BooleanNetwork.compute_next_node_state (net : BooleanNetwork)
    (node_index : Nat) (current_state_binary : List Nat) : Nat :=
  let t := net.transitions.getD node_index ([], [])
  if t.1 = [] then
    current_state_binary.getD node_index 0
  else
    t.2.getD (binary_to_int (t.1.map fun p => current_state_binary.getD p 0)) 0

/-- The `synchronous=True` branch of `BooleanNetwork.compute_next_network_state`:
decode, update every node against the same snapshot, re-encode. -/
def BooleanNetwork.compute_next_network_state_sync (net : BooleanNetwork)
    (current_state : Nat) : Nat :=
  let current_state_binary := net.int_to_binary current_state
  binary_to_int ((List.range net.number_of_nodes).map fun i =>
    net.compute_next_node_state i current_state_binary)

/-- Well-formedness of a network, as assumed throughout the Python code: the
transition list has one entry per node, every parent index is in range, every
truth table has length `2 ^ number_of_parents`, and truth-table entries are
bits. -/
def WellFormed (net : BooleanNetwork) : Prop :=
  net.transitions.length = net.number_of_nodes ∧
  ∀ t ∈ net.transitions,
    (∀ p ∈ t.1, p < net.number_of_nodes) ∧
    t.2.length = 2 ^ t.1.length ∧
    ∀ b ∈ t.2, b ≤ 1

/-- Modelled from the spec: the construction-time validation described in §4.1
and §7 of the specification ("parent indices must lie in [0,N); truth table
length must equal 2^(number of parents); reject otherwise").  No such check
exists anywhere in the source; this definition exists only to state that
`BooleanNetwork.init` ignores it. -/
def specValidNetwork (net : BooleanNetwork) : Prop :=
  ∀ t ∈ net.transitions,
    (∀ p ∈ t.1, p < net.number_of_nodes) ∧ t.2.length = 2 ^ t.1.length

instance (net : BooleanNetwork) : Decidable (specValidNetwork net) := by
  unfold specValidNetwork; infer_instance

instance (net : BooleanNetwork) : Decidable (WellFormed net) := by
  unfold WellFormed; infer_instance

/-- `AsyncAnalyzerTarjan._async_successors` (the same code appears verbatim in
`AttractorsAsynchronousNetworkx.py`): for each node `i` of the decoded state,
the state re-encoded after rewriting entry `i` to the node's computed next
value, kept only when it differs from the input state. -/
def BooleanNetwork.async_successors (net : BooleanNetwork) (state_int : Nat) :
    List Nat :=
  let cur := net.int_to_binary state_int
  ((List.range net.number_of_nodes).map fun i =>
      binary_to_int (cur.set i (net.compute_next_node_state i cur))).filter
    fun succ => decide (succ ≠ state_int)

/-! ### The synchronous analyzer (`StateSpaceAnalysisSynchronous.py`) -/

/-- One value of the `StateSpaceAnalyzer.state_info` dictionary:
`{"is_attractor": _, "attractor_id": _, "distance": _}`. -/
structure SyncRecord where
  is_attractor : Bool
  attractor_id : Nat
  distance : Nat
deriving Repr, DecidableEq

/-- The mutable fields of `StateSpaceAnalyzer`: the `state_info` dictionary
(a partial map from state integers) and the `_next_attractor_id` counter. -/
structure SyncAnalyzerState where
  state_info : Nat → Option SyncRecord
  next_attractor_id : Nat

/-- A sequence of dictionary writes `state_info[k] = v`, leftmost first. -/
def writeAll (m : Nat → Option SyncRecord) :
    List (Nat × SyncRecord) → Nat → Option SyncRecord
  | [] => m
  | p :: rest => writeAll (Function.update m p.1 (some p.2)) rest

namespace StateSpaceAnalyzer

/-- The dictionary writes performed by
`StateSpaceAnalyzer._register_new_attractor`: first the cycle states
`path[cycle_start:]` (fresh id, distance 0), then, walking backwards, the
transient states `path[cycle_start-1], ..., path[0]` with the same id and
distance `cycle_start - i`. -/
def registerWrites (path : List Nat) (cycle_start attractor_id : Nat) :
    List (Nat × SyncRecord) :=
  ((path.drop cycle_start).map fun state =>
      (state, SyncRecord.mk true attractor_id 0)) ++
    ((List.range cycle_start).reverse.map fun i =>
      (path.getD i 0, SyncRecord.mk false attractor_id (cycle_start - i)))

/-- `StateSpaceAnalyzer._register_new_attractor`: perform the writes and
allocate the next attractor id. -/
def register_new_attractor (path : List Nat) (cycle_start : Nat)
    (σ : SyncAnalyzerState) : SyncAnalyzerState :=
  { state_info := writeAll σ.state_info
      (registerWrites path cycle_start σ.next_attractor_id)
    next_attractor_id := σ.next_attractor_id + 1 }

/-- `StateSpaceAnalyzer._propagate_existing_info`: every path state, walked
backwards, becomes transient with the known state's attractor id and distance
`known.distance + (len(path) - i)`.  (The `none` case is unreachable: the
caller looked `known_state` up in `state_info` just before.) -/
def propagateWrites (path : List Nat) (known : SyncRecord) :
    List (Nat × SyncRecord) :=
  (List.range path.length).reverse.map fun i =>
    (path.getD i 0,
      SyncRecord.mk false known.attractor_id
        (known.distance + (path.length - i)))

/-- `StateSpaceAnalyzer._propagate_existing_info` proper: look the known state
up and perform the writes. -/
def propagate_existing_info (path : List Nat) (known_state : Nat)
    (σ : SyncAnalyzerState) : SyncAnalyzerState :=
  match σ.state_info known_state with
  | none => σ
  | some known =>
    { σ with state_info := writeAll σ.state_info (propagateWrites path known) }

/-- The `while True` loop of `StateSpaceAnalyzer._analyze_from_state`, with
explicit fuel.  The Python code keeps `visited_local`, a dictionary mapping
each path state to its position; since a state is appended only when absent,
`visited_local[current]` is the index of the first occurrence of `current` in
`path`, i.e. `path.indexOf current`. -/
def analyze_from_state (net : BooleanNetwork) :
    Nat → List Nat → Nat → SyncAnalyzerState → Option SyncAnalyzerState
  | 0, _, _, _ => none
  | fuel + 1, path, current, σ =>
    if current ∈ path then
      some (register_new_attractor path (path.indexOf current) σ)
    else if (σ.state_info current).isSome then
      some (propagate_existing_info path current σ)
    else
      analyze_from_state net fuel (path ++ [current])
        (net.compute_next_network_state_sync current) σ

/-- The loop of `StateSpaceAnalyzer.analyze` over all `2^N` start states.  The
fuel `2^N + 1` given to each walk is proved sufficient for well-formed
networks (`analyze_from_state_total`). -/
def analyze_go (net : BooleanNetwork) :
    List Nat → SyncAnalyzerState → Option SyncAnalyzerState
  | [], σ => some σ
  | state :: rest, σ =>
    if (σ.state_info state).isSome then analyze_go net rest σ
    else
      match analyze_from_state net (2 ^ net.number_of_nodes + 1) [] state σ with
      | none => none
      | some σ' => analyze_go net rest σ'

/-- `StateSpaceAnalyzer.analyze`: full state-space analysis starting from the
empty classification store and attractor counter 0. -/
def analyze (net : BooleanNetwork) : Option SyncAnalyzerState :=
  analyze_go net (List.range (2 ^ net.number_of_nodes))
    { state_info := fun _ => none, next_attractor_id := 0 }

end StateSpaceAnalyzer

/-- A state lies on a cycle of the synchronous functional graph: some positive
number of synchronous steps leads back to it. -/
def Periodic (net : BooleanNetwork) (s : Nat) : Prop :=
  ∃ k, 0 < k ∧ (net.compute_next_network_state_sync)^[k] s = s

/-- The invariant of the synchronous classification store: every classified
state's successor is classified with the same attractor id and a distance one
smaller (or staying 0), `is_attractor` is equivalent to `distance = 0`, and
`is_attractor` holds exactly for states on cycles of the functional graph. -/
def SyncInv (net : BooleanNetwork) (m : Nat → Option SyncRecord) : Prop :=
  ∀ s r, m s = some r →
    (∃ r', m (net.compute_next_network_state_sync s) = some r' ∧
        r'.attractor_id = r.attractor_id ∧
        (r.distance = 0 → r'.distance = 0) ∧
        (r.distance ≠ 0 → r'.distance = r.distance - 1)) ∧
    (r.is_attractor = true ↔ r.distance = 0) ∧
    (r.is_attractor = true ↔ Periodic net s)

/-! ### The asynchronous analyzer (`AttractorsAsynchronousTarjan.py`) -/

/-- One value of the `AsyncAnalyzerTarjan.state_info` dictionary:
`{"is_attractor": _, "attractor_id": _}` where the id is `None` for
transient states. -/
structure AsyncRecord where
  is_attractor : Bool
  attractor_id : Option Nat
deriving Repr, DecidableEq

namespace AsyncAnalyzerTarjan

/-- The mutable fields of `AsyncAnalyzerTarjan` used by Tarjan's algorithm.
The Python stack appends and pops at the right end; here the stack top is the
list head.  `attractors` collects each discovered attractor SCC in pop order. -/
structure TarjanState where
  index : Nat
  stack : List Nat
  indices : Nat → Option Nat
  lowlink : Nat → Option Nat
  on_stack : Nat → Bool
  attractors : List (List Nat)

/-- The initial analyzer state set up by `AsyncAnalyzerTarjan.__init__`. -/
def initState : TarjanState :=
  { index := 0, stack := [], indices := fun _ => none, lowlink := fun _ => none,
    on_stack := fun _ => false, attractors := [] }

/-- The `while True` pop loop closing an SCC: pop until (and including)
`state`, returning the popped states (in pop order) and the remaining stack. -/
def popSCC (state : Nat) : List Nat → List Nat × List Nat
  | [] => ([], [])
  | w :: rest =>
    if w = state then ([w], rest)
    else
      let p := popSCC state rest
      (w :: p.1, p.2)

/-- The tail of `AsyncAnalyzerTarjan._strongconnect`: when `state` is a root
(`lowlink == index`), pop its SCC, clear the `on_stack` flags, and append the
SCC to `attractors` when no member has a successor outside it. -/
def closeSCC (net : BooleanNetwork) (state : Nat) (σ : TarjanState) :
    TarjanState :=
  if σ.lowlink state = σ.indices state then
    let p := popSCC state σ.stack
    let scc := p.1
    let on2 := scc.foldl (fun f w => Function.update f w false) σ.on_stack
    let σ' : TarjanState := { σ with stack := p.2, on_stack := on2 }
    if scc.all fun node =>
        (net.async_successors node).all fun succ => decide (succ ∈ scc) then
      { σ' with attractors := σ'.attractors ++ [scc] }
    else σ'
  else σ

/-- The successor loop of `AsyncAnalyzerTarjan._strongconnect`, parametrized
by the recursive call `sc` (the fuelled `strongconnect`): unvisited successors
are explored recursively and fold their lowlink into `state`'s; on-stack
visited successors fold their discovery index. -/
def scLoop (net : BooleanNetwork) (sc : Nat → TarjanState → Option TarjanState)
    (state : Nat) : List Nat → TarjanState → Option TarjanState
  | [], σ => some σ
  | succ :: rest, σ =>
    if (σ.indices succ).isNone then
      match sc succ σ with
      | none => none
      | some σ' =>
          let low := Function.update σ'.lowlink state
            (some (min ((σ'.lowlink state).getD 0) ((σ'.lowlink succ).getD 0)))
          scLoop net sc state rest { σ' with lowlink := low }
    else if σ.on_stack succ then
      let low := Function.update σ.lowlink state
        (some (min ((σ.lowlink state).getD 0) ((σ.indices succ).getD 0)))
      scLoop net sc state rest { σ with lowlink := low }
    else
      scLoop net sc state rest σ

/-- The head of `AsyncAnalyzerTarjan._strongconnect`: assign discovery index
and lowlink, advance the counter, push `state` and set its on-stack flag. -/
def visitState (state : Nat) (σ : TarjanState) : TarjanState :=
  { index := σ.index + 1
    stack := state :: σ.stack
    indices := Function.update σ.indices state (some σ.index)
    lowlink := Function.update σ.lowlink state (some σ.index)
    on_stack := Function.update σ.on_stack state true
    attractors := σ.attractors }

/-- `AsyncAnalyzerTarjan._strongconnect` with explicit recursion fuel: assign
discovery index and lowlink, push `state`, process the successors, then close
the SCC if `state` is a root. -/
def strongconnect (net : BooleanNetwork) :
    Nat → Nat → TarjanState → Option TarjanState
  | 0, _, _ => none
  | fuel + 1, state, σ =>
    match scLoop net (strongconnect net fuel) state (net.async_successors state)
        (visitState state σ) with
    | none => none
    | some σ2 => some (closeSCC net state σ2)

/-- The first loop of `AsyncAnalyzerTarjan.analyze`, running `_strongconnect`
from every not-yet-visited state.  The fuel `2^N + 1` is proved sufficient for
well-formed networks (`strongconnect_total`). -/
def analyze_scc_go (net : BooleanNetwork) :
    List Nat → TarjanState → Option TarjanState
  | [], σ => some σ
  | state :: rest, σ =>
    if (σ.indices state).isNone then
      match strongconnect net (2 ^ net.number_of_nodes + 1) state σ with
      | none => none
      | some σ' => analyze_scc_go net rest σ'
    else analyze_scc_go net rest σ

/-- The id-assignment loop of `AsyncAnalyzerTarjan.analyze`: members of the
`k`-th collected SCC receive `{"is_attractor": True, "attractor_id": k}`. -/
def assignAttractorIds : List (List Nat) → Nat → (Nat → Option AsyncRecord) →
    (Nat → Option AsyncRecord)
  | [], _, m => m
  | scc :: rest, attractor_id, m =>
      assignAttractorIds rest (attractor_id + 1)
        (scc.foldl (fun m state =>
          Function.update m state (some ⟨true, some attractor_id⟩)) m)

/-- The final loop of `AsyncAnalyzerTarjan.analyze`: every state in
`[0, 2^N)` still missing from `state_info` becomes
`{"is_attractor": False, "attractor_id": None}`. -/
def markTransients (num_states : Nat) (m : Nat → Option AsyncRecord) :
    Nat → Option AsyncRecord :=
  (List.range num_states).foldl
    (fun m state =>
      if (m state).isSome then m
      else Function.update m state (some ⟨false, none⟩)) m

/-- What `AsyncAnalyzerTarjan.analyze` leaves behind: the `state_info`
dictionary and the list of attractor SCCs. -/
structure Result where
  state_info : Nat → Option AsyncRecord
  attractors : List (List Nat)

/-- `AsyncAnalyzerTarjan.analyze`: Tarjan pass over all states, then id
assignment, then transient marking. -/
def analyze (net : BooleanNetwork) : Option Result :=
  match analyze_scc_go net (List.range (2 ^ net.number_of_nodes)) initState with
  | none => none
  | some σ =>
      some { state_info := markTransients (2 ^ net.number_of_nodes)
               (assignAttractorIds σ.attractors 0 fun _ => none)
             attractors := σ.attractors }

end AsyncAnalyzerTarjan

/-! ### Semantic view of the asynchronous state graph -/

/-- One edge of the asynchronous state transition graph. -/
def Edge (net : BooleanNetwork) (a b : Nat) : Prop :=
  b ∈ net.async_successors a

/-- Reachability in the asynchronous state transition graph. -/
def Reaches (net : BooleanNetwork) : Nat → Nat → Prop :=
  Relation.ReflTransGen (Edge net)

/-- Two states lie in the same strongly connected component: each reaches the
other. -/
def InSameSCC (net : BooleanNetwork) (a b : Nat) : Prop :=
  Reaches net a b ∧ Reaches net b a

/-- The discovery index recorded for a state (meaningful when visited). -/
def tIdx (σ : AsyncAnalyzerTarjan.TarjanState) (v : Nat) : Nat :=
  (σ.indices v).getD 0

/-- The lowlink recorded for a state (meaningful when visited). -/
def tLow (σ : AsyncAnalyzerTarjan.TarjanState) (v : Nat) : Nat :=
  (σ.lowlink v).getD 0

/-- The global invariant of Tarjan's traversal.  `chain` is the in-progress
DFS call chain (innermost first); every other visited state is "finished". -/
structure TarjanGood (net : BooleanNetwork) (chain : List Nat)
    (σ : AsyncAnalyzerTarjan.TarjanState) : Prop where
  stack_flag : ∀ v, σ.on_stack v = true ↔ v ∈ σ.stack
  stack_nodup : σ.stack.Nodup
  stack_visited : ∀ v ∈ σ.stack, (σ.indices v).isSome
  stack_sorted : σ.stack.Pairwise (fun a b => tIdx σ b < tIdx σ a)
  visited_lt : ∀ v, (σ.indices v).isSome → tIdx σ v < σ.index
  chain_sub : ∀ c ∈ chain, c ∈ σ.stack
  finished_succ : ∀ v, (σ.indices v).isSome → v ∉ chain →
    ∀ y ∈ net.async_successors v, (σ.indices y).isSome
  dead_closed : ∀ v, (σ.indices v).isSome → v ∉ σ.stack →
    ∀ y ∈ net.async_successors v, (σ.indices y).isSome ∧ y ∉ σ.stack
  finished_low : ∀ w ∈ σ.stack, w ∉ chain →
    tLow σ w < tIdx σ w ∧
      ∃ z ∈ σ.stack, tIdx σ z = tLow σ w ∧ Reaches net w z
  attr_mem : ∀ l ∈ σ.attractors, ∀ w ∈ l,
    (σ.indices w).isSome ∧ w ∉ σ.stack ∧ ∀ w', w' ∈ l ↔ InSameSCC net w w'
  attr_complete : ∀ v, (σ.indices v).isSome → v ∉ σ.stack →
    ((∀ t u, InSameSCC net v t → Edge net t u → InSameSCC net v u) ↔
      ∃ l ∈ σ.attractors, v ∈ l)
  attr_disjoint : σ.attractors.Pairwise fun l1 l2 => ∀ w, w ∈ l1 → w ∉ l2

/-- The full postcondition of one `strongconnect` call on a previously
unvisited vertex `v`, relating the state `σ` before to the state `σ'` after
(with ambient chain `ch`). -/
def SCSpec (net : BooleanNetwork) (ch : List Nat) (v : Nat)
    (σ σ' : AsyncAnalyzerTarjan.TarjanState) : Prop :=
  TarjanGood net ch σ' ∧
  σ.index < σ'.index ∧
  (∀ t, (σ.indices t).isSome → σ'.indices t = σ.indices t) ∧
  (∀ t, (σ.indices t).isSome → σ'.lowlink t = σ.lowlink t) ∧
  (σ'.indices v).isSome ∧
  tIdx σ' v = σ.index ∧
  (∀ w, (σ'.indices w).isSome → (σ.indices w).isSome ∨ Reaches net v w) ∧
  (∀ w, ¬ (σ.indices w).isSome → (σ'.indices w).isSome →
    σ.index ≤ tIdx σ' w) ∧
  (∃ NEW : List Nat, σ'.stack = NEW ++ σ.stack ∧
    ∀ w ∈ NEW, ¬ (σ.indices w).isSome) ∧
  (∀ x, ¬ (σ.indices x).isSome → (σ'.indices x).isSome →
    ∀ y, Edge net x y → (σ'.indices y).isSome ∧
      (y ∈ σ'.stack → v ∈ σ'.stack ∧ tLow σ' v ≤ tIdx σ' y)) ∧
  (σ'.lowlink v).isSome ∧
  tLow σ' v ≤ σ.index ∧
  (v ∈ σ'.stack → tLow σ' v < σ.index ∧
    ∃ z ∈ σ'.stack, tIdx σ' z = tLow σ' v ∧ Reaches net v z) ∧
  (v ∉ σ'.stack → tLow σ' v = σ.index)

/-- The postcondition of the successor loop of `strongconnect` for vertex
`state` (ambient chain `state :: rest`), over the remaining successor list
`succs`. -/
def LoopSpec (net : BooleanNetwork) (rest : List Nat) (state : Nat)
    (succs : List Nat) (σ σ2 : AsyncAnalyzerTarjan.TarjanState) : Prop :=
  TarjanGood net (state :: rest) σ2 ∧
  σ.index ≤ σ2.index ∧
  (∀ t, (σ.indices t).isSome → σ2.indices t = σ.indices t) ∧
  (∀ t, t ≠ state → (σ.indices t).isSome → σ2.lowlink t = σ.lowlink t) ∧
  (∀ w, (σ2.indices w).isSome →
    (σ.indices w).isSome ∨ ∃ y ∈ succs, Reaches net y w) ∧
  (∀ w, ¬ (σ.indices w).isSome → (σ2.indices w).isSome →
    σ.index ≤ tIdx σ2 w) ∧
  (∃ NEW : List Nat, σ2.stack = NEW ++ σ.stack ∧
    ∀ w ∈ NEW, ¬ (σ.indices w).isSome) ∧
  (∀ x, ¬ (σ.indices x).isSome → (σ2.indices x).isSome →
    ∀ y, Edge net x y → (σ2.indices y).isSome ∧
      (y ∈ σ2.stack → tLow σ2 state ≤ tIdx σ2 y)) ∧
  (∀ y ∈ succs, (σ2.indices y).isSome ∧
    (y ∈ σ2.stack → tLow σ2 state ≤ tIdx σ2 y)) ∧
  tLow σ2 state ≤ tLow σ state ∧
  (σ2.lowlink state).isSome ∧
  (tLow σ2 state = tIdx σ2 state ∨
    (tLow σ2 state < tIdx σ2 state ∧
      ∃ z ∈ σ2.stack, tIdx σ2 z = tLow σ2 state ∧ Reaches net state z))

/-- The lowlink fold `lowlink[state] := min(lowlink[state], val)` performed by
both branches of the successor loop (`scLoop`). -/
def foldMin (state val : Nat) (σ : AsyncAnalyzerTarjan.TarjanState) :
    AsyncAnalyzerTarjan.TarjanState :=
  let low := Function.update σ.lowlink state (some (min (tLow σ state) val))
  { σ with lowlink := low }

/-! ### Basic facts about the codec -/

theorem binary_to_int_eq_sum (l : List Nat) :
    binary_to_int l = ∑ i ∈ Finset.range l.length, l.getD i 0 * 2 ^ i := by
  induction l with
  | nil => simp [binary_to_int]
  | cons b bs ih =>
      rw [binary_to_int, ih, List.length_cons, Finset.sum_range_succ']
      simp only [List.getD_cons_succ, List.getD_cons_zero, pow_zero, mul_one]
      rw [add_comm]
      congr 1
      rw [Finset.mul_sum]
      exact Finset.sum_congr rfl fun x _ => by ring

theorem length_int_to_binary_go (n m : Nat) : (int_to_binary_go n m).length = n := by
  induction n generalizing m with
  | zero => rfl
  | succ n ih => simp [int_to_binary_go, ih]

theorem mem_int_to_binary_go_le_one {n m b : Nat} (hb : b ∈ int_to_binary_go n m) :
    b ≤ 1 := by
  induction n generalizing m with
  | zero => simp [int_to_binary_go] at hb
  | succ n ih =>
      rcases List.mem_cons.mp hb with h | h
      · omega
      · exact ih h

theorem getD_int_to_binary_go {n i : Nat} (m : Nat) (hi : i < n) :
    (int_to_binary_go n m).getD i 0 = m / 2 ^ i % 2 := by
  induction n generalizing i m with
  | zero => omega
  | succ n ih =>
      cases i with
      | zero => simp [int_to_binary_go]
      | succ i =>
          simp only [int_to_binary_go, List.getD_cons_succ]
          rw [ih (m / 2) (show i < n by omega), Nat.div_div_eq_div_mul,
            mul_comm 2 (2 ^ i), ← pow_succ]

theorem mod_two_mul_eq (m K : Nat) (hK : 0 < K) :
    m % (2 * K) = m % 2 + 2 * (m / 2 % K) := by
  have h1 : m = 2 * K * (m / 2 / K) + (2 * (m / 2 % K) + m % 2) := by
    have h2 := Nat.div_add_mod m 2
    have h3 := Nat.div_add_mod (m / 2) K
    ring_nf
    omega
  have hlt : 2 * (m / 2 % K) + m % 2 < 2 * K := by
    have := Nat.mod_lt (m / 2) hK
    have := Nat.mod_lt m (show 0 < 2 by omega)
    omega
  calc m % (2 * K) = (2 * K * (m / 2 / K) + (2 * (m / 2 % K) + m % 2)) % (2 * K) := by
        rw [← h1]
    _ = (2 * (m / 2 % K) + m % 2) % (2 * K) := by rw [Nat.mul_add_mod]
    _ = 2 * (m / 2 % K) + m % 2 := Nat.mod_eq_of_lt hlt
    _ = m % 2 + 2 * (m / 2 % K) := by omega

theorem binary_to_int_int_to_binary_go (n m : Nat) :
    binary_to_int (int_to_binary_go n m) = m % 2 ^ n := by
  induction n generalizing m with
  | zero => simp [int_to_binary_go, binary_to_int, Nat.mod_one]
  | succ n ih =>
      rw [int_to_binary_go, binary_to_int, ih]
      rw [pow_succ, mul_comm (2 ^ n) 2, mod_two_mul_eq m (2 ^ n) (Nat.pos_pow_of_pos n (by omega))]

theorem int_to_binary_go_binary_to_int {l : List Nat} (hb : ∀ b ∈ l, b ≤ 1) :
    int_to_binary_go l.length (binary_to_int l) = l := by
  induction l with
  | nil => rfl
  | cons b bs ih =>
      have hb0 : b ≤ 1 := hb b (List.mem_cons_self b bs)
      have hbs : ∀ x ∈ bs, x ≤ 1 := fun x hx => hb x (List.mem_cons_of_mem b hx)
      have hmod : (b + 2 * binary_to_int bs) % 2 = b := by omega
      have hdiv : (b + 2 * binary_to_int bs) / 2 = binary_to_int bs := by omega
      simp only [List.length_cons, int_to_binary_go, binary_to_int, hmod, hdiv,
        ih hbs]

theorem binary_to_int_lt {l : List Nat} (hb : ∀ b ∈ l, b ≤ 1) :
    binary_to_int l < 2 ^ l.length := by
  induction l with
  | nil => simp [binary_to_int]
  | cons b bs ih =>
      have hb0 : b ≤ 1 := hb b (List.mem_cons_self b bs)
      have hbs : ∀ x ∈ bs, x ≤ 1 := fun x hx => hb x (List.mem_cons_of_mem b hx)
      have := ih hbs
      rw [binary_to_int, List.length_cons, pow_succ]
      omega

/-- Changing one in-range entry of a bit list changes its little-endian value
iff the new entry differs from the old one. -/
theorem binary_to_int_set_eq_iff {l : List Nat} {i : Nat} (v : Nat)
    (hi : i < l.length) :
    binary_to_int (l.set i v) = binary_to_int l ↔ v = l.getD i 0 := by
  induction l generalizing i with
  | nil => simp at hi
  | cons b bs ih =>
      cases i with
      | zero => simp [binary_to_int]
      | succ i =>
          have hi' : i < bs.length := by simpa using hi
          simp only [List.set_cons_succ, binary_to_int, List.getD_cons_succ,
            Nat.add_right_cancel_iff, Nat.mul_left_cancel_iff, Nat.succ_ne_zero,
            two_pos]
          constructor
          · intro h
            exact (ih hi').mp (by omega)
          · intro h
            rw [(ih hi').mpr h]

/-! ### Claims about the codec, the node evaluator, construction and the
asynchronous successor relation -/

/-- **C4**: the state codec functions are mutually inverse on their intended
domains: decoding an integer in `[0, 2^N)` and re-encoding gives the integer
back, and encoding a length-`N` bit vector and re-decoding gives the vector
back (little-endian, bit `i` has weight `2^i`). -/
theorem codec_mutually_inverse (net : BooleanNetwork) :
    (∀ state : Nat, state < 2 ^ net.number_of_nodes →
      binary_to_int (net.int_to_binary state) = state) ∧
    (∀ v : List Nat, v.length = net.number_of_nodes → (∀ b ∈ v, b ≤ 1) →
      net.int_to_binary (binary_to_int v) = v) := by
  constructor
  · intro s hs
    rw [BooleanNetwork.int_to_binary, binary_to_int_int_to_binary_go,
      Nat.mod_eq_of_lt hs]
  · intro v hlen hb
    rw [BooleanNetwork.int_to_binary, ← hlen, int_to_binary_go_binary_to_int hb]

/-- Witness for `codec_mutually_inverse` on a concrete 2-node network. -/
theorem codec_mutually_inverse_witness :
    binary_to_int ((BooleanNetwork.init 2 []).int_to_binary 3) = 3 ∧
    (BooleanNetwork.init 2 []).int_to_binary (binary_to_int [1, 0]) = [1, 0] :=
  ⟨(codec_mutually_inverse (BooleanNetwork.init 2 [])).1 3 (by decide),
   (codec_mutually_inverse (BooleanNetwork.init 2 [])).2 [1, 0] (by decide)
     (by decide)⟩

/-- **C10**: for every nonnegative integer `m`, also out of range,
`int_to_binary m` is a list of exactly `N` bits, bit `i` being the `i`-th
low-order bit of `m`; hence the round trip through the codec yields
`m % 2 ^ N` — an out-of-range state integer is silently reduced modulo `2^N`
rather than rejected. -/
theorem int_to_binary_mod_reduction (net : BooleanNetwork) (m : Nat) :
    (net.int_to_binary m).length = net.number_of_nodes ∧
    (∀ i, i < net.number_of_nodes →
      (net.int_to_binary m).getD i 0 = m / 2 ^ i % 2) ∧
    binary_to_int (net.int_to_binary m) = m % 2 ^ net.number_of_nodes := by
  refine ⟨length_int_to_binary_go _ _, fun i hi => getD_int_to_binary_go m hi,
    binary_to_int_int_to_binary_go _ _⟩

/-- Witness for `int_to_binary_mod_reduction` at `N = 2`, `m = 7 ≥ 2^2`. -/
theorem int_to_binary_mod_reduction_witness :
    ((BooleanNetwork.init 2 []).int_to_binary 7).getD 1 0 = 7 / 2 ^ 1 % 2 ∧
    binary_to_int ((BooleanNetwork.init 2 []).int_to_binary 7) = 7 % 2 ^ 2 :=
  ⟨(int_to_binary_mod_reduction (BooleanNetwork.init 2 []) 7).2.1 1 (by decide),
   (int_to_binary_mod_reduction (BooleanNetwork.init 2 []) 7).2.2⟩

/-- **C5**: `compute_next_node_state` returns, for a node with an empty parent
list, the node's current bit unchanged — whatever its truth table holds — and,
for a node with parents, the truth-table entry indexed by the little-endian
encoding of the parents' current bits in parent-list order. -/
theorem compute_next_node_state_spec (net : BooleanNetwork) (node_index : Nat)
    (bits : List Nat) (parents table : List Nat)
    (ht : net.transitions.getD node_index ([], []) = (parents, table)) :
    (parents = [] → ∀ h : node_index < bits.length,
      net.compute_next_node_state node_index bits = bits.get ⟨node_index, h⟩) ∧
    (parents ≠ [] →
      net.compute_next_node_state node_index bits =
        table.getD (binary_to_int (parents.map fun p => bits.getD p 0)) 0) := by
  constructor
  · intro hp h
    simp only [BooleanNetwork.compute_next_node_state, ht, hp, if_pos rfl]
    rw [List.get_eq_getElem]
    exact List.getD_eq_getElem bits 0 h
  · intro hp
    simp only [BooleanNetwork.compute_next_node_state, ht, if_neg hp]

/-- Witness for `compute_next_node_state_spec` on a concrete 2-node network:
node 0 has no parents (current bit carried over), node 1 reads node 0. -/
theorem compute_next_node_state_spec_witness :
    (BooleanNetwork.init 2 [([], [0]), ([0], [1, 0])]).compute_next_node_state
        0 [1, 1] = 1 ∧
    (BooleanNetwork.init 2 [([], [0]), ([0], [1, 0])]).compute_next_node_state
        1 [1, 1] = 0 := by
  constructor
  · exact ((compute_next_node_state_spec (BooleanNetwork.init 2 [([], [0]), ([0], [1, 0])])
      0 [1, 1] [] [0] (by decide)).1 rfl (by decide)).trans (by decide)
  · exact ((compute_next_node_state_spec (BooleanNetwork.init 2 [([], [0]), ([0], [1, 0])])
      1 [1, 1] [0] [1, 0] (by decide)).2 (by decide)).trans (by decide)

/-- **C6**: the asynchronous successor list of a state `s < 2^N` contains
exactly the states obtained by rewriting one node `i` to its computed next
value when that value differs from node `i`'s current bit, and `s` never
appears in its own successor list. -/
theorem async_successors_flip_iff (net : BooleanNetwork) (s : Nat)
    (hs : s < 2 ^ net.number_of_nodes) :
    (∀ t : Nat, t ∈ net.async_successors s ↔ ∃ i < net.number_of_nodes,
      net.compute_next_node_state i (net.int_to_binary s) ≠
          (net.int_to_binary s).getD i 0 ∧
      t = binary_to_int ((net.int_to_binary s).set i
            (net.compute_next_node_state i (net.int_to_binary s)))) ∧
    s ∉ net.async_successors s := by
  have hlen : (net.int_to_binary s).length = net.number_of_nodes :=
    length_int_to_binary_go _ _
  have hdec : binary_to_int (net.int_to_binary s) = s := by
    rw [BooleanNetwork.int_to_binary, binary_to_int_int_to_binary_go,
      Nat.mod_eq_of_lt hs]
  constructor
  · intro t
    simp only [BooleanNetwork.async_successors, List.mem_filter, List.mem_map,
      List.mem_range, decide_eq_true_eq]
    constructor
    · rintro ⟨⟨i, hi, hfi⟩, hne⟩
      refine ⟨i, hi, ?_, hfi.symm⟩
      intro heq
      apply hne
      rw [← hfi]
      conv_rhs => rw [← hdec]
      exact (binary_to_int_set_eq_iff _ (show i < (net.int_to_binary s).length by
        rw [hlen]; exact hi)).mpr heq
    · rintro ⟨i, hi, hne, ht⟩
      refine ⟨⟨i, hi, ht.symm⟩, ?_⟩
      rw [ht]
      intro heq
      exact hne ((binary_to_int_set_eq_iff _ (show i < (net.int_to_binary s).length by
        rw [hlen]; exact hi)).mp (heq.trans hdec.symm))
  · simp only [BooleanNetwork.async_successors, List.mem_filter,
      decide_eq_true_eq]
    rintro ⟨-, hne⟩
    exact hne rfl

/-- Witness for `async_successors_flip_iff` on the 2-node network where node 0
negates itself and node 1 has no parents: from state 0 the only asynchronous
successor is state 1 (flip node 0). -/
theorem async_successors_flip_iff_witness :
    (1 ∈ (BooleanNetwork.init 2 [([0], [1, 0]), ([], [0])]).async_successors 0 ↔
      ∃ i < 2, (BooleanNetwork.init 2 [([0], [1, 0]), ([], [0])]).compute_next_node_state i
          ((BooleanNetwork.init 2 [([0], [1, 0]), ([], [0])]).int_to_binary 0) ≠
          ((BooleanNetwork.init 2 [([0], [1, 0]), ([], [0])]).int_to_binary 0).getD i 0 ∧
        1 = binary_to_int
            (((BooleanNetwork.init 2 [([0], [1, 0]), ([], [0])]).int_to_binary 0).set i
              ((BooleanNetwork.init 2 [([0], [1, 0]), ([], [0])]).compute_next_node_state i
                ((BooleanNetwork.init 2 [([0], [1, 0]), ([], [0])]).int_to_binary 0)))) ∧
    0 ∉ (BooleanNetwork.init 2 [([0], [1, 0]), ([], [0])]).async_successors 0 :=
  ⟨(async_successors_flip_iff (BooleanNetwork.init 2 [([0], [1, 0]), ([], [0])]) 0
      (by decide)).1 1,
   (async_successors_flip_iff (BooleanNetwork.init 2 [([0], [1, 0]), ([], [0])]) 0
      (by decide)).2⟩

/-- **C3** counterexample: the network with one node whose parent index `3`
lies outside `[0, 1)` fails the validation the specification describes, yet
`BooleanNetwork.__init__` accepts it unchanged — no `ValidationError` (or any
check at all) exists at construction. -/
theorem construction_unvalidated_counterexample :
    ¬ specValidNetwork (BooleanNetwork.init 1 [([3], [0, 0])]) ∧
    BooleanNetwork.init 1 [([3], [0, 0])] =
      { number_of_nodes := 1, transitions := [([3], [0, 0])] } :=
  ⟨by decide, rfl⟩

/-- **C3 amended**: construction performs no validation at all —
`BooleanNetwork.__init__` stores whatever transitions it is given, even ones
rejected by the validation rule the specification states, and analysis is in
no way prevented from starting on such a network. -/
theorem construction_accepts_invalid (number_of_nodes : Nat)
    (transitions : List Transition)
    (_hinvalid : ¬ specValidNetwork ⟨number_of_nodes, transitions⟩) :
    (BooleanNetwork.init number_of_nodes transitions).number_of_nodes =
        number_of_nodes ∧
    (BooleanNetwork.init number_of_nodes transitions).transitions =
        transitions :=
  ⟨rfl, rfl⟩

/-- Witness for `construction_accepts_invalid` at the invalid network of the
counterexample. -/
theorem construction_accepts_invalid_witness :
    (BooleanNetwork.init 1 [([3], [0, 0])]).number_of_nodes = 1 ∧
    (BooleanNetwork.init 1 [([3], [0, 0])]).transitions = [([3], [0, 0])] :=
  construction_accepts_invalid 1 [([3], [0, 0])] (by decide)

/-- **C9**: for a 1-node network whose single node has no parents (with any
truth table, which is never consulted), the synchronous successor of each of
the two states is itself, each state has no asynchronous successor, and both
classifiers mark states 0 and 1 as singleton attractors — synchronously with
distance 0 and fresh ids 0 and 1, asynchronously as the two singleton sink
SCCs `[0]` and `[1]`. -/
theorem one_node_no_parent_trivial_attractors (t : List Nat) :
    (BooleanNetwork.init 1 [([], t)]).compute_next_network_state_sync 0 = 0 ∧
    (BooleanNetwork.init 1 [([], t)]).compute_next_network_state_sync 1 = 1 ∧
    (BooleanNetwork.init 1 [([], t)]).async_successors 0 = [] ∧
    (BooleanNetwork.init 1 [([], t)]).async_successors 1 = [] ∧
    (StateSpaceAnalyzer.analyze (BooleanNetwork.init 1 [([], t)])).map
        (fun σ => (σ.state_info 0, σ.state_info 1)) =
      some (some ⟨true, 0, 0⟩, some ⟨true, 1, 0⟩) ∧
    (AsyncAnalyzerTarjan.analyze (BooleanNetwork.init 1 [([], t)])).map
        (fun r => (r.attractors, r.state_info 0, r.state_info 1)) =
      some ([[0], [1]], some ⟨true, some 0⟩, some ⟨true, some 1⟩) :=
  ⟨rfl, rfl, rfl, rfl, rfl, rfl⟩

/-! ### Helper lemmas for the synchronous analyzer proofs -/

theorem getD_le_one {l : List Nat} (h : ∀ b ∈ l, b ≤ 1) (i : Nat) :
    l.getD i 0 ≤ 1 := by
  by_cases hi : i < l.length
  · rw [List.getD_eq_getElem l 0 hi]
    exact h _ (List.getElem_mem hi)
  · rw [List.getD_eq_default l 0 (by omega)]
    omega

theorem getD_mem {l : List Nat} {i : Nat} (hi : i < l.length) : l.getD i 0 ∈ l := by
  rw [List.getD_eq_getElem l 0 hi]
  exact List.getElem_mem hi

theorem int_to_binary_le_one (net : BooleanNetwork) (s : Nat) :
    ∀ b ∈ net.int_to_binary s, b ≤ 1 :=
  fun _ hb => mem_int_to_binary_go_le_one hb

theorem compute_next_node_state_le_one {net : BooleanNetwork}
    (hwf : WellFormed net) {bits : List Nat} (hb : ∀ b ∈ bits, b ≤ 1)
    (i : Nat) : net.compute_next_node_state i bits ≤ 1 := by
  simp only [BooleanNetwork.compute_next_node_state]
  split
  · exact getD_le_one hb i
  · rename_i hp
    have hi : i < net.transitions.length := by
      by_contra hge
      rw [List.getD_eq_default _ _ (by omega)] at hp
      exact hp rfl
    have hmem : net.transitions.getD i ([], []) ∈ net.transitions := by
      rw [List.getD_eq_getElem _ _ hi]
      exact List.getElem_mem hi
    exact getD_le_one (hwf.2 _ hmem).2.2 _

theorem compute_next_network_state_sync_lt {net : BooleanNetwork}
    (hwf : WellFormed net) (s : Nat) :
    net.compute_next_network_state_sync s < 2 ^ net.number_of_nodes := by
  have h := binary_to_int_lt
    (l := (List.range net.number_of_nodes).map fun i =>
      net.compute_next_node_state i (net.int_to_binary s))
    (by
      intro b hb
      rcases List.mem_map.mp hb with ⟨i, _, rfl⟩
      exact compute_next_node_state_le_one hwf (int_to_binary_le_one net s) i)
  simpa [BooleanNetwork.compute_next_network_state_sync] using h

theorem writeAll_notMem {l : List (Nat × SyncRecord)} {x : Nat}
    (hx : ∀ p ∈ l, p.1 ≠ x) :
    ∀ m : Nat → Option SyncRecord, writeAll m l x = m x := by
  induction l with
  | nil => intro m; rfl
  | cons p rest ih =>
      intro m
      rw [writeAll, ih fun q hq => hx q (List.mem_cons_of_mem p hq)]
      exact Function.update_noteq (Ne.symm (hx p (List.mem_cons_self p rest))) _ _

theorem writeAll_mem {l : List (Nat × SyncRecord)} {x : Nat} {r : SyncRecord}
    (hnd : (l.map Prod.fst).Nodup) (hmem : (x, r) ∈ l) :
    ∀ m : Nat → Option SyncRecord, writeAll m l x = some r := by
  induction l with
  | nil => simp at hmem
  | cons p rest ih =>
      intro m
      rcases List.mem_cons.mp hmem with h | h
      · have hx : p.1 ∉ rest.map Prod.fst := (List.nodup_cons.mp hnd).1
        have hne : ∀ q ∈ rest, q.1 ≠ x := by
          intro q hq hq1
          apply hx
          have hq2 : q.1 ∈ rest.map Prod.fst := List.mem_map_of_mem Prod.fst hq
          rw [hq1] at hq2
          rw [← h]
          exact hq2
        rw [writeAll, writeAll_notMem hne, ← h, Function.update_same]
      · rw [writeAll]
        exact ih (List.nodup_cons.mp hnd).2 h _

theorem nodup_getD_inj {l : List Nat} (h : l.Nodup) {i j : Nat}
    (hi : i < l.length) (hj : j < l.length)
    (heq : l.getD i 0 = l.getD j 0) : i = j := by
  rw [List.getD_eq_getElem l 0 hi, List.getD_eq_getElem l 0 hj] at heq
  have h2 := (List.Nodup.get_inj_iff h (i := ⟨i, hi⟩) (j := ⟨j, hj⟩)).mp
    (by simpa using heq)
  simpa using h2

theorem range_reverse_map_getD {path : List Nat} {cs : Nat}
    (hcs : cs ≤ path.length) :
    (List.range cs).reverse.map (fun i => path.getD i 0) =
      (path.take cs).reverse := by
  rw [List.map_reverse]
  congr 1
  apply List.ext_getElem
  · simp
    omega
  · intro i h1 h2
    have hi : i < cs := by simpa using h1
    have hip : i < path.length := by omega
    simp only [List.getElem_map, List.getElem_range, List.getElem_take]
    exact List.getD_eq_getElem path 0 hip

theorem iterate_mul_period {f : Nat → Nat} {k s : Nat} (hk : f^[k] s = s) :
    ∀ q, f^[k * q] s = s := by
  intro q
  induction q with
  | zero => simp
  | succ q ih =>
      rw [Nat.mul_succ, Function.iterate_add_apply, hk, ih]

theorem periodic_comes_back {net : BooleanNetwork} {s : Nat}
    (hp : Periodic net s) (m : Nat) :
    ∃ j, (net.compute_next_network_state_sync)^[j]
      ((net.compute_next_network_state_sync)^[m] s) = s := by
  obtain ⟨k, hk0, hk⟩ := hp
  refine ⟨k * (m + 1) - m, ?_⟩
  rw [← Function.iterate_add_apply]
  have hkm : m + 1 ≤ k * (m + 1) := Nat.le_mul_of_pos_left (m + 1) hk0
  have : k * (m + 1) - m + m = k * (m + 1) := by omega
  rw [this]
  exact iterate_mul_period hk (m + 1)

theorem succ_mod_eq (a P : Nat) : (a + 1) % P = (a % P + 1) % P := by
  have h := Nat.div_add_mod a P
  have h2 : a + 1 = P * (a / P) + (a % P + 1) := by omega
  rw [h2, Nat.mul_add_mod]

theorem chain_getD_iterate {net : BooleanNetwork} {path : List Nat}
    (hchain : ∀ i, i + 1 < path.length →
      path.getD (i + 1) 0 =
        net.compute_next_network_state_sync (path.getD i 0)) :
    ∀ i j, i + j < path.length →
      path.getD (i + j) 0 =
        (net.compute_next_network_state_sync)^[j] (path.getD i 0) := by
  intro i j
  induction j with
  | zero => intro _; simp
  | succ j ih =>
      intro h
      have h1 : i + j + 1 < path.length := by omega
      have h2 : i + (j + 1) = i + j + 1 := by omega
      rw [h2, Function.iterate_succ_apply', ← ih (by omega), ← hchain (i + j) h1]

theorem sync_state_bound {K : Nat} {l : List Nat} (hnd : l.Nodup)
    (hlt : ∀ p ∈ l, p < K) : l.length ≤ K := by
  have h1 : l.toFinset.card = l.length := List.toFinset_card_of_nodup hnd
  have h2 : l.toFinset ⊆ Finset.range K := by
    intro x hx
    rw [Finset.mem_range]
    exact hlt x (List.mem_toFinset.mp hx)
  have := Finset.card_le_card h2
  rw [h1, Finset.card_range] at this
  exact this

/-! ### Lookup lemmas for the analyzer's dictionary writes -/

theorem registerWrites_keys {path : List Nat} {cs : Nat} (hcs : cs ≤ path.length)
    (aid : Nat) :
    (StateSpaceAnalyzer.registerWrites path cs aid).map Prod.fst =
      path.drop cs ++ (path.take cs).reverse := by
  rw [StateSpaceAnalyzer.registerWrites, List.map_append, List.map_map,
    List.map_map]
  congr 1
  · rw [show (Prod.fst ∘ fun state =>
        (state, SyncRecord.mk true aid 0)) = id from rfl, List.map_id]
  · rw [show (Prod.fst ∘ fun i =>
        (path.getD i 0, SyncRecord.mk false aid (cs - i))) =
        fun i => path.getD i 0 from rfl]
    exact range_reverse_map_getD hcs

theorem registerWrites_keys_nodup {path : List Nat} {cs : Nat}
    (hnd : path.Nodup) (hcs : cs ≤ path.length) (aid : Nat) :
    ((StateSpaceAnalyzer.registerWrites path cs aid).map Prod.fst).Nodup := by
  rw [registerWrites_keys hcs aid]
  have hsplit : (path.take cs ++ path.drop cs).Nodup := by
    rw [List.take_append_drop]
    exact hnd
  rcases List.nodup_append.mp hsplit with ⟨ht, hd, hdisj⟩
  exact List.nodup_append.mpr ⟨hd, List.nodup_reverse.mpr ht,
    fun a ha hb => hdisj (List.mem_reverse.mp hb) ha⟩

theorem register_lookup_old {path : List Nat} {cs : Nat} {x : Nat}
    (hcs : cs ≤ path.length) (aid : Nat) (hx : x ∉ path)
    (m : Nat → Option SyncRecord) :
    writeAll m (StateSpaceAnalyzer.registerWrites path cs aid) x = m x := by
  apply writeAll_notMem
  intro p hp hpx
  apply hx
  rcases List.mem_append.mp hp with h | h
  · rcases List.mem_map.mp h with ⟨st, hst, rfl⟩
    rw [← hpx]
    exact List.mem_of_mem_drop hst
  · rcases List.mem_map.mp h with ⟨i, hi, rfl⟩
    have hic : i < cs := by
      have := List.mem_reverse.mp hi
      simpa using this
    rw [← hpx]
    exact getD_mem (by omega)

theorem register_lookup_cycle {path : List Nat} {cs : Nat}
    (hnd : path.Nodup) {j : Nat} (hj1 : cs ≤ j) (hj2 : j < path.length)
    (aid : Nat) (m : Nat → Option SyncRecord) :
    writeAll m (StateSpaceAnalyzer.registerWrites path cs aid)
      (path.getD j 0) = some (SyncRecord.mk true aid 0) := by
  apply writeAll_mem (registerWrites_keys_nodup hnd (by omega) aid)
  apply List.mem_append_left
  apply List.mem_map.mpr
  refine ⟨path.getD j 0, ?_, rfl⟩
  have hlen : j - cs < (path.drop cs).length := by
    rw [List.length_drop]
    omega
  have key : (path.drop cs).getD (j - cs) 0 = path.getD (cs + (j - cs)) 0 := by
    rw [List.getD_eq_getElem _ 0 hlen,
      List.getD_eq_getElem _ 0 (show cs + (j - cs) < path.length by omega)]
    exact (List.getElem_drop' path ..).symm
  have h4 : cs + (j - cs) = j := by omega
  rw [h4] at key
  rw [← key]
  exact getD_mem hlen

theorem register_lookup_transient {path : List Nat} {cs : Nat}
    (hnd : path.Nodup) (hcs : cs ≤ path.length) {i : Nat} (hi : i < cs)
    (aid : Nat) (m : Nat → Option SyncRecord) :
    writeAll m (StateSpaceAnalyzer.registerWrites path cs aid)
      (path.getD i 0) = some (SyncRecord.mk false aid (cs - i)) := by
  apply writeAll_mem (registerWrites_keys_nodup hnd hcs aid)
  apply List.mem_append_right
  apply List.mem_map.mpr
  refine ⟨i, ?_, rfl⟩
  rw [List.mem_reverse, List.mem_range]
  exact hi

theorem propagateWrites_keys (path : List Nat) (known : SyncRecord) :
    (StateSpaceAnalyzer.propagateWrites path known).map Prod.fst =
      path.reverse := by
  rw [StateSpaceAnalyzer.propagateWrites, List.map_map]
  rw [show (Prod.fst ∘ fun i =>
      (path.getD i 0,
        SyncRecord.mk false known.attractor_id
          (known.distance + (path.length - i)))) =
      fun i => path.getD i 0 from rfl]
  rw [range_reverse_map_getD le_rfl, List.take_length]

theorem propagate_lookup_old {path : List Nat} {x : Nat}
    (known : SyncRecord) (hx : x ∉ path) (m : Nat → Option SyncRecord) :
    writeAll m (StateSpaceAnalyzer.propagateWrites path known) x = m x := by
  apply writeAll_notMem
  intro p hp hpx
  apply hx
  rcases List.mem_map.mp hp with ⟨i, hi, rfl⟩
  have hic : i < path.length := by
    have := List.mem_reverse.mp hi
    simpa using this
  rw [← hpx]
  exact getD_mem hic

theorem propagate_lookup_path {path : List Nat} (hnd : path.Nodup)
    {i : Nat} (hi : i < path.length) (known : SyncRecord)
    (m : Nat → Option SyncRecord) :
    writeAll m (StateSpaceAnalyzer.propagateWrites path known)
      (path.getD i 0) =
      some (SyncRecord.mk false known.attractor_id
        (known.distance + (path.length - i))) := by
  apply writeAll_mem
  · rw [propagateWrites_keys]
    exact List.nodup_reverse.mpr hnd
  · apply List.mem_map.mpr
    refine ⟨i, ?_, rfl⟩
    rw [List.mem_reverse, List.mem_range]
    exact hi

/-! ### Cycle structure of a closed walk and invariant preservation -/

theorem cyc_next {net : BooleanNetwork} {path : List Nat} {current cs : Nat}
    (hchain : ∀ i, i + 1 < path.length →
      path.getD (i + 1) 0 = net.compute_next_network_state_sync (path.getD i 0))
    (hcs_lt : cs < path.length)
    (hcs_get : path.getD cs 0 = current)
    (hlast : current = net.compute_next_network_state_sync
      (path.getD (path.length - 1) 0)) :
    ∀ j, cs ≤ j → j < path.length →
      net.compute_next_network_state_sync (path.getD j 0) =
        path.getD (cs + ((j - cs + 1) % (path.length - cs))) 0 := by
  intro j hj1 hj2
  by_cases hj3 : j + 1 < path.length
  · rw [← hchain j hj3,
      Nat.mod_eq_of_lt (show j - cs + 1 < path.length - cs by omega),
      show cs + (j - cs + 1) = j + 1 from by omega]
  · have h5 : net.compute_next_network_state_sync (path.getD j 0) = current := by
      rw [show j = path.length - 1 from by omega, ← hlast]
    have hm : j - cs + 1 = path.length - cs := by omega
    rw [h5, ← hcs_get, hm, Nat.mod_self, Nat.add_zero]

theorem cyc_iter {net : BooleanNetwork} {path : List Nat} {current cs : Nat}
    (hchain : ∀ i, i + 1 < path.length →
      path.getD (i + 1) 0 = net.compute_next_network_state_sync (path.getD i 0))
    (hcs_lt : cs < path.length)
    (hcs_get : path.getD cs 0 = current)
    (hlast : current = net.compute_next_network_state_sync
      (path.getD (path.length - 1) 0)) :
    ∀ j, cs ≤ j → j < path.length → ∀ k,
      (net.compute_next_network_state_sync)^[k] (path.getD j 0) =
        path.getD (cs + ((j - cs + k) % (path.length - cs))) 0 := by
  intro j hj1 hj2 k
  induction k with
  | zero =>
      rw [Function.iterate_zero_apply,
        Nat.mod_eq_of_lt (show j - cs + 0 < path.length - cs by omega),
        show cs + (j - cs + 0) = j from by omega]
  | succ k ih =>
      rw [Function.iterate_succ_apply', ih]
      have hr : (j - cs + k) % (path.length - cs) < path.length - cs :=
        Nat.mod_lt _ (by omega)
      rw [cyc_next hchain hcs_lt hcs_get hlast
        (cs + (j - cs + k) % (path.length - cs)) (by omega) (by omega)]
      have h6 : cs + (j - cs + k) % (path.length - cs) - cs =
          (j - cs + k) % (path.length - cs) := by omega
      rw [h6, ← succ_mod_eq, show j - cs + k + 1 = j - cs + (k + 1) from by omega]

theorem cyc_periodic {net : BooleanNetwork} {path : List Nat} {current cs : Nat}
    (hchain : ∀ i, i + 1 < path.length →
      path.getD (i + 1) 0 = net.compute_next_network_state_sync (path.getD i 0))
    (hcs_lt : cs < path.length)
    (hcs_get : path.getD cs 0 = current)
    (hlast : current = net.compute_next_network_state_sync
      (path.getD (path.length - 1) 0)) :
    ∀ j, cs ≤ j → j < path.length → Periodic net (path.getD j 0) := by
  intro j hj1 hj2
  refine ⟨path.length - cs, by omega, ?_⟩
  rw [cyc_iter hchain hcs_lt hcs_get hlast j hj1 hj2 (path.length - cs),
    Nat.add_mod_right, Nat.mod_eq_of_lt (by omega),
    show cs + (j - cs) = j from by omega]

theorem trans_not_periodic {net : BooleanNetwork} {path : List Nat}
    {current cs : Nat}
    (hnd : path.Nodup)
    (hchain : ∀ i, i + 1 < path.length →
      path.getD (i + 1) 0 = net.compute_next_network_state_sync (path.getD i 0))
    (hcs_lt : cs < path.length)
    (hcs_get : path.getD cs 0 = current)
    (hlast : current = net.compute_next_network_state_sync
      (path.getD (path.length - 1) 0)) :
    ∀ i, i < cs → ¬ Periodic net (path.getD i 0) := by
  intro i hi hper
  have hstep : (net.compute_next_network_state_sync)^[cs - i] (path.getD i 0) =
      path.getD cs 0 := by
    have h := chain_getD_iterate hchain i (cs - i) (by omega)
    rw [show i + (cs - i) = cs from by omega] at h
    exact h.symm
  obtain ⟨jj, hjj⟩ := periodic_comes_back hper (cs - i)
  rw [hstep, cyc_iter hchain hcs_lt hcs_get hlast cs le_rfl hcs_lt jj] at hjj
  have hidx : cs + (cs - cs + jj) % (path.length - cs) < path.length := by
    have := Nat.mod_lt (cs - cs + jj) (y := path.length - cs) (by omega)
    omega
  have heq := nodup_getD_inj hnd hidx (by omega : i < path.length) hjj
  omega

theorem SyncInv_isSome_iterate {net : BooleanNetwork}
    {m : Nat → Option SyncRecord} (hinv : SyncInv net m) :
    ∀ (j : Nat) (s : Nat) (r : SyncRecord), m s = some r →
      ∃ r', m ((net.compute_next_network_state_sync)^[j] s) = some r' := by
  intro j
  induction j with
  | zero => exact fun s r hs => ⟨r, hs⟩
  | succ j ih =>
      intro s r hs
      obtain ⟨⟨r1, hr1, -⟩, -, -⟩ := hinv s r hs
      obtain ⟨r', hr'⟩ := ih _ _ hr1
      rw [Function.iterate_succ_apply]
      exact ⟨r', hr'⟩

theorem SyncInv_register {net : BooleanNetwork} {m : Nat → Option SyncRecord}
    {path : List Nat} {current cs : Nat} (aid : Nat)
    (hinv : SyncInv net m)
    (hnd : path.Nodup)
    (hun : ∀ p ∈ path, m p = none)
    (hchain : ∀ i, i + 1 < path.length →
      path.getD (i + 1) 0 = net.compute_next_network_state_sync (path.getD i 0))
    (hcs_lt : cs < path.length)
    (hcs_get : path.getD cs 0 = current)
    (hlast : current = net.compute_next_network_state_sync
      (path.getD (path.length - 1) 0)) :
    SyncInv net (writeAll m (StateSpaceAnalyzer.registerWrites path cs aid)) := by
  intro s r hs
  by_cases hsp : s ∈ path
  · obtain ⟨n, hget⟩ := List.mem_iff_get.mp hsp
    have hjgetD : path.getD n.val 0 = s := by
      rw [List.getD_eq_getElem _ 0 n.isLt, ← List.get_eq_getElem]
      exact hget
    rcases Nat.lt_or_ge n.val cs with hjc | hjc
    · -- transient part of the walk
      have hlook := register_lookup_transient hnd (by omega) hjc aid m
      rw [hjgetD, hs] at hlook
      have hr := Option.some.inj hlook
      subst hr
      refine ⟨?_, iff_of_false (by simp) (by simp; omega),
        iff_of_false (by simp) ?_⟩
      · have hstep : net.compute_next_network_state_sync s =
            path.getD (n.val + 1) 0 := by
          rw [← hjgetD, ← hchain n.val (by omega)]
        rcases Nat.lt_or_ge (n.val + 1) cs with hj1 | hj1
        · refine ⟨SyncRecord.mk false aid (cs - (n.val + 1)), ?_, rfl, ?_, ?_⟩
          · rw [hstep]
            exact register_lookup_transient hnd (by omega) hj1 aid m
          · intro h0
            exact absurd h0 (by simp; omega)
          · intro _
            show cs - (n.val + 1) = cs - n.val - 1
            omega
        · have hj2 : n.val + 1 = cs := by omega
          refine ⟨SyncRecord.mk true aid 0, ?_, rfl, fun h0 => ?_, fun _ => ?_⟩
          · rw [hstep, hj2]
            exact register_lookup_cycle hnd le_rfl hcs_lt aid m
          · exact absurd h0 (by simp; omega)
          · show (0 : Nat) = cs - n.val - 1
            omega
      · rw [← hjgetD]
        exact trans_not_periodic hnd hchain hcs_lt hcs_get hlast n.val hjc
    · -- cycle part of the walk
      have hlook := register_lookup_cycle hnd hjc n.isLt aid m
      rw [hjgetD, hs] at hlook
      have hr := Option.some.inj hlook
      subst hr
      refine ⟨?_, by simp, iff_of_true rfl ?_⟩
      · have hnext := cyc_next hchain hcs_lt hcs_get hlast n.val hjc n.isLt
        have hidxlt : cs + (n.val - cs + 1) % (path.length - cs) <
            path.length := by
          have := Nat.mod_lt (n.val - cs + 1) (y := path.length - cs) (by omega)
          omega
        refine ⟨SyncRecord.mk true aid 0, ?_, rfl, fun _ => rfl,
          fun h0 => absurd rfl h0⟩
        rw [← hjgetD, hnext]
        exact register_lookup_cycle hnd (by omega) hidxlt aid m
      · rw [← hjgetD]
        exact cyc_periodic hchain hcs_lt hcs_get hlast n.val hjc n.isLt
  · -- previously classified state, untouched by the writes
    have hlook := register_lookup_old (show cs ≤ path.length by omega) aid hsp m
    rw [hlook] at hs
    obtain ⟨⟨r', hr', hid, hd0, hdp⟩, h2, h3⟩ := hinv s r hs
    have hstep_notin : net.compute_next_network_state_sync s ∉ path := by
      intro hmem
      rw [hun _ hmem] at hr'
      exact Option.noConfusion hr'
    refine ⟨⟨r', ?_, hid, hd0, hdp⟩, h2, h3⟩
    rw [register_lookup_old (show cs ≤ path.length by omega) aid hstep_notin m]
    exact hr'

theorem getD_append_left {l m : List Nat} {i : Nat} (h : i < l.length) :
    (l ++ m).getD i 0 = l.getD i 0 := by
  rw [List.getD_eq_getElem _ 0 (by rw [List.length_append]; omega),
    List.getD_eq_getElem l 0 h]
  exact List.getElem_append_left h

theorem getD_concat_length (l : List Nat) (x : Nat) :
    (l ++ [x]).getD l.length 0 = x := by
  have h : l.length < (l ++ [x]).length := by simp
  rw [List.getD_eq_getElem _ 0 h, List.getElem_append_right (le_refl l.length)]
  simp

theorem SyncInv_propagate {net : BooleanNetwork} {m : Nat → Option SyncRecord}
    {path : List Nat} {current : Nat} {kr : SyncRecord}
    (hinv : SyncInv net m)
    (hnd : path.Nodup)
    (hun : ∀ p ∈ path, m p = none)
    (hchain : ∀ i, i + 1 < path.length →
      path.getD (i + 1) 0 = net.compute_next_network_state_sync (path.getD i 0))
    (hknown : m current = some kr)
    (hlast : path ≠ [] → current = net.compute_next_network_state_sync
      (path.getD (path.length - 1) 0)) :
    SyncInv net (writeAll m (StateSpaceAnalyzer.propagateWrites path kr)) := by
  have hcur_notin : current ∉ path := by
    intro hmem
    rw [hun _ hmem] at hknown
    exact Option.noConfusion hknown
  have hstep_to : ∀ i, i < path.length →
      (net.compute_next_network_state_sync)^[path.length - i] (path.getD i 0) =
        current := by
    intro i hi
    have hne : path ≠ [] := by
      intro h0
      rw [h0] at hi
      simp at hi
    have h1 := chain_getD_iterate hchain i (path.length - 1 - i) (by omega)
    rw [show i + (path.length - 1 - i) = path.length - 1 from by omega] at h1
    rw [show path.length - i = (path.length - 1 - i) + 1 from by omega,
      Function.iterate_succ_apply', ← h1, ← hlast hne]
  have hnot_per : ∀ i, i < path.length → ¬ Periodic net (path.getD i 0) := by
    intro i hi hper
    obtain ⟨jj, hjj⟩ := periodic_comes_back hper (path.length - i)
    rw [hstep_to i hi] at hjj
    obtain ⟨r', hr'⟩ := SyncInv_isSome_iterate hinv jj current kr hknown
    rw [hjj, hun _ (getD_mem hi)] at hr'
    exact Option.noConfusion hr'
  intro s r hs
  by_cases hsp : s ∈ path
  · obtain ⟨n, hget⟩ := List.mem_iff_get.mp hsp
    have hjgetD : path.getD n.val 0 = s := by
      rw [List.getD_eq_getElem _ 0 n.isLt, ← List.get_eq_getElem]
      exact hget
    have hlook := propagate_lookup_path hnd n.isLt kr m
    rw [hjgetD, hs] at hlook
    have hr := Option.some.inj hlook
    subst hr
    refine ⟨?_, iff_of_false (by simp) (by simp; omega),
      iff_of_false (by simp) ?_⟩
    · rcases Nat.lt_or_ge (n.val + 1) path.length with hj1 | hj1
      · have hstep : net.compute_next_network_state_sync s =
            path.getD (n.val + 1) 0 := by
          rw [← hjgetD, ← hchain n.val hj1]
        refine ⟨SyncRecord.mk false kr.attractor_id
          (kr.distance + (path.length - (n.val + 1))), ?_, rfl, ?_, ?_⟩
        · rw [hstep]
          exact propagate_lookup_path hnd hj1 kr m
        · intro h0
          exact absurd h0 (by simp; omega)
        · intro _
          show kr.distance + (path.length - (n.val + 1)) =
            kr.distance + (path.length - n.val) - 1
          omega
      · have hn1 : n.val = path.length - 1 := by
          have := n.isLt
          omega
        have hne : path ≠ [] := List.ne_nil_of_mem hsp
        have hstep : net.compute_next_network_state_sync s = current := by
          rw [← hjgetD, hn1, ← hlast hne]
        refine ⟨kr, ?_, rfl, fun h0 => ?_, fun _ => ?_⟩
        · rw [hstep, propagate_lookup_old kr hcur_notin m]
          exact hknown
        · exact absurd h0 (by simp; omega)
        · show kr.distance = kr.distance + (path.length - n.val) - 1
          have := n.isLt
          omega
    · rw [← hjgetD]
      exact hnot_per n.val n.isLt
  · have hlook := propagate_lookup_old kr hsp m
    rw [hlook] at hs
    obtain ⟨⟨r', hr', hid, hd0, hdp⟩, h2, h3⟩ := hinv s r hs
    have hstep_notin : net.compute_next_network_state_sync s ∉ path := by
      intro hmem
      rw [hun _ hmem] at hr'
      exact Option.noConfusion hr'
    refine ⟨⟨r', ?_, hid, hd0, hdp⟩, h2, h3⟩
    rw [propagate_lookup_old kr hstep_notin m]
    exact hr'

/-! ### The walk loop: invariants and fuel sufficiency -/

theorem afs_spec {net : BooleanNetwork} :
    ∀ (fuel : Nat) (path : List Nat) (current : Nat)
      (σ σ' : SyncAnalyzerState),
      SyncInv net σ.state_info →
      path.Nodup →
      (∀ p ∈ path, σ.state_info p = none) →
      (∀ i, i + 1 < path.length →
        path.getD (i + 1) 0 =
          net.compute_next_network_state_sync (path.getD i 0)) →
      (path ≠ [] → current = net.compute_next_network_state_sync
        (path.getD (path.length - 1) 0)) →
      StateSpaceAnalyzer.analyze_from_state net fuel path current σ = some σ' →
      SyncInv net σ'.state_info ∧
      (∀ x r, σ.state_info x = some r → σ'.state_info x = some r) ∧
      (∀ p ∈ path, (σ'.state_info p).isSome) ∧
      (σ'.state_info current).isSome := by
  intro fuel
  induction fuel with
  | zero =>
      intro path current σ σ' _ _ _ _ _ heq
      exact absurd heq (by rw [StateSpaceAnalyzer.analyze_from_state]; simp)
  | succ fuel ih =>
      intro path current σ σ' hinv hnd hun hchain hlast heq
      rw [StateSpaceAnalyzer.analyze_from_state] at heq
      by_cases hcur : current ∈ path
      · rw [if_pos hcur] at heq
        have hσ' := (Option.some.inj heq).symm
        have hne : path ≠ [] := List.ne_nil_of_mem hcur
        have hcs_lt : path.indexOf current < path.length :=
          List.indexOf_lt_length.mpr hcur
        have hcs_get : path.getD (path.indexOf current) 0 = current := by
          have h5 := List.indexOf_get hcs_lt
          rw [List.get_eq_getElem] at h5
          rw [List.getD_eq_getElem _ 0 hcs_lt]
          exact h5
        have hlast' : current = net.compute_next_network_state_sync
            (path.getD (path.length - 1) 0) := hlast hne
        subst hσ'
        refine ⟨SyncInv_register σ.next_attractor_id hinv hnd hun hchain
          hcs_lt hcs_get hlast', ?_, ?_, ?_⟩
        · intro x r hx
          have hxnp : x ∉ path := by
            intro hmem
            rw [hun _ hmem] at hx
            exact Option.noConfusion hx
          show writeAll σ.state_info _ x = some r
          rw [register_lookup_old (show path.indexOf current ≤ path.length
            by omega) σ.next_attractor_id hxnp σ.state_info]
          exact hx
        · intro p hp
          obtain ⟨n, hget⟩ := List.mem_iff_get.mp hp
          have hjgetD : path.getD n.val 0 = p := by
            rw [List.getD_eq_getElem _ 0 n.isLt, ← List.get_eq_getElem]
            exact hget
          show (writeAll σ.state_info _ p).isSome
          rcases Nat.lt_or_ge n.val (path.indexOf current) with hjc | hjc
          · rw [← hjgetD, register_lookup_transient hnd (by omega) hjc
              σ.next_attractor_id σ.state_info]
            rfl
          · rw [← hjgetD, register_lookup_cycle hnd hjc n.isLt
              σ.next_attractor_id σ.state_info]
            rfl
        · have h6 := register_lookup_cycle hnd le_rfl hcs_lt
            σ.next_attractor_id σ.state_info
          rw [hcs_get] at h6
          show (writeAll σ.state_info _ current).isSome
          rw [h6]
          rfl
      · rw [if_neg hcur] at heq
        by_cases hsome : (σ.state_info current).isSome
        · rw [if_pos hsome] at heq
          have hσ' := (Option.some.inj heq).symm
          obtain ⟨kr, hkr⟩ := Option.isSome_iff_exists.mp hsome
          have hst : σ'.state_info =
              writeAll σ.state_info
                (StateSpaceAnalyzer.propagateWrites path kr) := by
            rw [hσ']
            simp only [StateSpaceAnalyzer.propagate_existing_info, hkr]
          rw [hst]
          refine ⟨SyncInv_propagate hinv hnd hun hchain hkr hlast, ?_, ?_, ?_⟩
          · intro x r hx
            have hxnp : x ∉ path := by
              intro hmem
              rw [hun _ hmem] at hx
              exact Option.noConfusion hx
            rw [propagate_lookup_old kr hxnp σ.state_info]
            exact hx
          · intro p hp
            obtain ⟨n, hget⟩ := List.mem_iff_get.mp hp
            have hjgetD : path.getD n.val 0 = p := by
              rw [List.getD_eq_getElem _ 0 n.isLt, ← List.get_eq_getElem]
              exact hget
            rw [← hjgetD, propagate_lookup_path hnd n.isLt kr σ.state_info]
            rfl
          · rw [propagate_lookup_old kr hcur σ.state_info, hkr]
            rfl
        · rw [if_neg hsome] at heq
          have hnone : σ.state_info current = none :=
            Option.not_isSome_iff_eq_none.mp hsome
          have hnd' : (path ++ [current]).Nodup := by
            refine List.nodup_append.mpr ⟨hnd, List.nodup_singleton _, ?_⟩
            intro a ha hb
            rw [List.mem_singleton] at hb
            subst hb
            exact hcur ha
          have hun' : ∀ p ∈ path ++ [current], σ.state_info p = none := by
            intro p hp
            rcases List.mem_append.mp hp with h | h
            · exact hun p h
            · rw [List.mem_singleton] at h
              subst h
              exact hnone
          have hchain' : ∀ i, i + 1 < (path ++ [current]).length →
              (path ++ [current]).getD (i + 1) 0 =
                net.compute_next_network_state_sync
                  ((path ++ [current]).getD i 0) := by
            intro i hi
            rw [List.length_append, List.length_singleton] at hi
            rcases Nat.lt_or_ge (i + 1) path.length with h1 | h1
            · rw [getD_append_left h1, getD_append_left (by omega), hchain i h1]
            · have h2 : i + 1 = path.length := by omega
              have hne : path ≠ [] := by
                intro h0
                rw [h0] at h2
                simp at h2
              rw [h2, getD_concat_length, getD_append_left (by omega),
                show i = path.length - 1 from by omega]
              exact hlast hne
          have hlast' : path ++ [current] ≠ [] →
              net.compute_next_network_state_sync current =
                net.compute_next_network_state_sync
                  ((path ++ [current]).getD ((path ++ [current]).length - 1) 0) := by
            intro _
            rw [List.length_append, List.length_singleton,
              show path.length + 1 - 1 = path.length from by omega,
              getD_concat_length]
          obtain ⟨hi1, hi2, hi3, hi4⟩ := ih (path ++ [current])
            (net.compute_next_network_state_sync current) σ σ'
            hinv hnd' hun' hchain' hlast' heq
          refine ⟨hi1, hi2, ?_, ?_⟩
          · intro p hp
            exact hi3 p (List.mem_append_left _ hp)
          · exact hi3 current (List.mem_append_right _ (List.mem_singleton_self _))

theorem afs_total {net : BooleanNetwork} (hwf : WellFormed net) :
    ∀ (fuel : Nat) (path : List Nat) (current : Nat) (σ : SyncAnalyzerState),
      path.Nodup →
      (∀ p ∈ path, p < 2 ^ net.number_of_nodes) →
      current < 2 ^ net.number_of_nodes →
      2 ^ net.number_of_nodes + 1 ≤ fuel + path.length →
      (StateSpaceAnalyzer.analyze_from_state net fuel path current σ).isSome := by
  intro fuel
  induction fuel with
  | zero =>
      intro path current σ hnd hplt hclt hfuel
      exfalso
      have := sync_state_bound hnd hplt
      omega
  | succ fuel ih =>
      intro path current σ hnd hplt hclt hfuel
      rw [StateSpaceAnalyzer.analyze_from_state]
      by_cases hcur : current ∈ path
      · rw [if_pos hcur]
        rfl
      · rw [if_neg hcur]
        by_cases hsome : (σ.state_info current).isSome
        · rw [if_pos hsome]
          rfl
        · rw [if_neg hsome]
          apply ih
          · refine List.nodup_append.mpr ⟨hnd, List.nodup_singleton _, ?_⟩
            intro a ha hb
            rw [List.mem_singleton] at hb
            subst hb
            exact hcur ha
          · intro p hp
            rcases List.mem_append.mp hp with h | h
            · exact hplt p h
            · rw [List.mem_singleton] at h
              subst h
              exact hclt
          · exact compute_next_network_state_sync_lt hwf current
          · rw [List.length_append, List.length_singleton]
            omega

theorem analyze_go_spec {net : BooleanNetwork} (hwf : WellFormed net) :
    ∀ (states : List Nat) (σ : SyncAnalyzerState),
      SyncInv net σ.state_info →
      (∀ x ∈ states, x < 2 ^ net.number_of_nodes) →
      ∃ σ', StateSpaceAnalyzer.analyze_go net states σ = some σ' ∧
        SyncInv net σ'.state_info ∧
        (∀ x r, σ.state_info x = some r → σ'.state_info x = some r) ∧
        (∀ x ∈ states, (σ'.state_info x).isSome) := by
  intro states
  induction states with
  | nil =>
      intro σ hinv _
      exact ⟨σ, rfl, hinv, fun x r h => h, by simp⟩
  | cons s rest ih =>
      intro σ hinv hlt
      rw [StateSpaceAnalyzer.analyze_go]
      by_cases hsome : (σ.state_info s).isSome
      · rw [if_pos hsome]
        obtain ⟨σ', h1, h2, h3, h4⟩ := ih σ hinv
          (fun x hx => hlt x (List.mem_cons_of_mem s hx))
        refine ⟨σ', h1, h2, h3, ?_⟩
        intro x hx
        rcases List.mem_cons.mp hx with h | h
        · subst h
          obtain ⟨r, hr⟩ := Option.isSome_iff_exists.mp hsome
          rw [h3 x r hr]
          rfl
        · exact h4 x h
      · rw [if_neg hsome]
        have htot := afs_total hwf (2 ^ net.number_of_nodes + 1) [] s σ
          List.nodup_nil (by simp) (hlt s (List.mem_cons_self s rest)) (by simp)
        obtain ⟨σ1, hσ1⟩ := Option.isSome_iff_exists.mp htot
        obtain ⟨hinv1, hpres1, -, hcur1⟩ := afs_spec
          (2 ^ net.number_of_nodes + 1) [] s σ σ1 hinv List.nodup_nil
          (by simp) (by intro i hi; simp at hi) (fun h => absurd rfl h) hσ1
        rw [hσ1]
        obtain ⟨σ', h1, h2, h3, h4⟩ := ih σ1 hinv1
          (fun x hx => hlt x (List.mem_cons_of_mem s hx))
        refine ⟨σ', h1, h2, fun x r hx => h3 x r (hpres1 x r hx), ?_⟩
        intro x hx
        rcases List.mem_cons.mp hx with h | h
        · subst h
          obtain ⟨r, hr⟩ := Option.isSome_iff_exists.mp hcur1
          rw [h3 x r hr]
          rfl
        · exact h4 x h

theorem sync_analyze_spec {net : BooleanNetwork} (hwf : WellFormed net) :
    ∃ σ, StateSpaceAnalyzer.analyze net = some σ ∧
      SyncInv net σ.state_info ∧
      ∀ s, s < 2 ^ net.number_of_nodes → (σ.state_info s).isSome := by
  have hinv0 : SyncInv net (fun _ => none : Nat → Option SyncRecord) := by
    intro s r hs
    exact Option.noConfusion hs
  obtain ⟨σ, h1, h2, -, h4⟩ := analyze_go_spec hwf
    (List.range (2 ^ net.number_of_nodes))
    { state_info := fun _ => none, next_attractor_id := 0 } hinv0
    (fun x hx => List.mem_range.mp hx)
  exact ⟨σ, h1, h2, fun s hs => h4 s (List.mem_range.mpr hs)⟩

theorem SyncInv_iterate_distance {net : BooleanNetwork}
    {m : Nat → Option SyncRecord} (hinv : SyncInv net m) :
    ∀ (d : Nat) (s : Nat) (r : SyncRecord), m s = some r → r.distance = d →
      ∃ r', m ((net.compute_next_network_state_sync)^[d] s) = some r' ∧
        r'.distance = 0 ∧ r'.attractor_id = r.attractor_id := by
  intro d
  induction d with
  | zero =>
      intro s r hs hd
      exact ⟨r, by simpa using hs, hd, rfl⟩
  | succ d ih =>
      intro s r hs hd
      obtain ⟨⟨r1, hr1, hid, -, hdp⟩, -, -⟩ := hinv s r hs
      have hr1d : r1.distance = d := by
        rw [hdp (by omega)]
        omega
      obtain ⟨r', hr', h0, hid'⟩ := ih _ r1 hr1 hr1d
      rw [Function.iterate_succ_apply]
      exact ⟨r', hr', h0, hid'.trans hid⟩

/-- **C1**: for every well-formed Boolean network, after the synchronous
analysis completes every state `s < 2^N` has a record whose `is_attractor`
flag holds exactly when `s` lies on a cycle of the synchronous step function
(there is `k ≥ 1` with the `k`-fold step returning to `s`): the marked
attractor states are exactly the cycle states, with no false positives or
negatives. -/
theorem sync_attractor_iff_cycle {net : BooleanNetwork} (hwf : WellFormed net)
    {σ : SyncAnalyzerState} (hana : StateSpaceAnalyzer.analyze net = some σ)
    {s : Nat} (hs : s < 2 ^ net.number_of_nodes) :
    ∃ r, σ.state_info s = some r ∧
      (r.is_attractor = true ↔
        ∃ k, 1 ≤ k ∧ (net.compute_next_network_state_sync)^[k] s = s) := by
  obtain ⟨σ0, h1, h2, h3⟩ := sync_analyze_spec hwf
  rw [hana] at h1
  have hσ := Option.some.inj h1
  subst hσ
  obtain ⟨r, hr⟩ := Option.isSome_iff_exists.mp (h3 s hs)
  obtain ⟨-, -, hper⟩ := h2 s r hr
  exact ⟨r, hr, hper⟩

/-- **C7**: for every well-formed Boolean network, after the synchronous
analysis completes, each state's record has distance 0 iff it is an attractor
state (transient states have distance ≥ 1), and applying the synchronous step
exactly `distance` times lands on a state whose record has distance 0 and the
same attractor id. -/
theorem sync_distance_reaches_attractor {net : BooleanNetwork}
    (hwf : WellFormed net) {σ : SyncAnalyzerState}
    (hana : StateSpaceAnalyzer.analyze net = some σ)
    {s : Nat} (hs : s < 2 ^ net.number_of_nodes) :
    ∃ r, σ.state_info s = some r ∧
      (r.is_attractor = true → r.distance = 0) ∧
      (r.is_attractor = false → 1 ≤ r.distance) ∧
      ∃ r', σ.state_info
          ((net.compute_next_network_state_sync)^[r.distance] s) = some r' ∧
        r'.distance = 0 ∧ r'.attractor_id = r.attractor_id := by
  obtain ⟨σ0, h1, h2, h3⟩ := sync_analyze_spec hwf
  rw [hana] at h1
  have hσ := Option.some.inj h1
  subst hσ
  obtain ⟨r, hr⟩ := Option.isSome_iff_exists.mp (h3 s hs)
  obtain ⟨-, hd, -⟩ := h2 s r hr
  refine ⟨r, hr, fun ha => hd.mp ha, fun ha => ?_, ?_⟩
  · rcases Nat.eq_zero_or_pos r.distance with h0 | h0
    · rw [hd.mpr h0] at ha
      exact absurd ha (by simp)
    · omega
  · exact SyncInv_iterate_distance h2 r.distance s r hr rfl

/-- Witness for `sync_attractor_iff_cycle` on the concrete 1-node network. -/
theorem sync_attractor_iff_cycle_witness :
    (((StateSpaceAnalyzer.analyze (BooleanNetwork.init 1 [([], [0])])).getD
        { state_info := fun _ => none, next_attractor_id := 0 }).state_info
      0).isSome = true := by
  obtain ⟨r, hr, -⟩ := @sync_attractor_iff_cycle
    (BooleanNetwork.init 1 [([], [0])]) (by decide)
    ((StateSpaceAnalyzer.analyze (BooleanNetwork.init 1 [([], [0])])).getD
      { state_info := fun _ => none, next_attractor_id := 0 })
    rfl 0 (by decide)
  rw [hr]
  rfl

/-- Witness for `sync_distance_reaches_attractor` on the concrete 1-node
network. -/
theorem sync_distance_reaches_attractor_witness :
    (((StateSpaceAnalyzer.analyze (BooleanNetwork.init 1 [([], [0])])).getD
        { state_info := fun _ => none, next_attractor_id := 0 }).state_info
      1).isSome = true := by
  obtain ⟨r, hr, -, -, -⟩ := @sync_distance_reaches_attractor
    (BooleanNetwork.init 1 [([], [0])]) (by decide)
    ((StateSpaceAnalyzer.analyze (BooleanNetwork.init 1 [([], [0])])).getD
      { state_info := fun _ => none, next_attractor_id := 0 })
    rfl 1 (by decide)
  rw [hr]
  rfl

/-! ### Fuel sufficiency for Tarjan's pass -/

theorem async_successors_lt {net : BooleanNetwork} (hwf : WellFormed net)
    (s : Nat) : ∀ t ∈ net.async_successors s, t < 2 ^ net.number_of_nodes := by
  intro t ht
  rw [BooleanNetwork.async_successors] at ht
  rcases List.mem_filter.mp ht with ⟨hmem, -⟩
  rcases List.mem_map.mp hmem with ⟨i, -, rfl⟩
  have hle : ∀ b ∈ (net.int_to_binary s).set i
      (net.compute_next_node_state i (net.int_to_binary s)), b ≤ 1 := by
    intro b hb
    rcases List.mem_or_eq_of_mem_set hb with h | h
    · exact int_to_binary_le_one net s b h
    · rw [h]
      exact compute_next_node_state_le_one hwf (int_to_binary_le_one net s) i
  have h := binary_to_int_lt hle
  have hlen : (net.int_to_binary s).length = net.number_of_nodes :=
    length_int_to_binary_go net.number_of_nodes s
  rw [List.length_set, hlen] at h
  exact h

theorem closeSCC_indices (net : BooleanNetwork) (s : Nat)
    (σ : AsyncAnalyzerTarjan.TarjanState) :
    (AsyncAnalyzerTarjan.closeSCC net s σ).indices = σ.indices := by
  rw [AsyncAnalyzerTarjan.closeSCC]
  split
  · dsimp only
    split
    · rfl
    · rfl
  · rfl

theorem scLoop_mono_aux (net : BooleanNetwork)
    (sc : Nat → AsyncAnalyzerTarjan.TarjanState →
      Option AsyncAnalyzerTarjan.TarjanState)
    (hsc : ∀ x σ σx, sc x σ = some σx →
      ∀ t, (σ.indices t).isSome → (σx.indices t).isSome) :
    ∀ (succs : List Nat) (state : Nat)
      (σ σ' : AsyncAnalyzerTarjan.TarjanState),
      AsyncAnalyzerTarjan.scLoop net sc state succs σ = some σ' →
      ∀ t, (σ.indices t).isSome → (σ'.indices t).isSome := by
  intro succs
  induction succs with
  | nil =>
      intro state σ σ' h t ht
      rw [AsyncAnalyzerTarjan.scLoop] at h
      rw [← Option.some.inj h]
      exact ht
  | cons succ rest ih =>
      intro state σ σ' h t ht
      rw [AsyncAnalyzerTarjan.scLoop] at h
      by_cases h1 : (σ.indices succ).isNone
      · rw [if_pos h1] at h
        cases hsc' : sc succ σ with
        | none =>
            rw [hsc'] at h
            exact Option.noConfusion h
        | some σx =>
            rw [hsc'] at h
            exact ih state _ σ' h t (hsc succ σ σx hsc' t ht)
      · rw [if_neg h1] at h
        by_cases h2 : σ.on_stack succ
        · rw [if_pos h2] at h
          exact ih state _ σ' h t ht
        · rw [if_neg h2] at h
          exact ih state _ σ' h t ht

theorem strongconnect_mono (net : BooleanNetwork) :
    ∀ (fuel state : Nat) (σ σ' : AsyncAnalyzerTarjan.TarjanState),
      AsyncAnalyzerTarjan.strongconnect net fuel state σ = some σ' →
      ∀ t, (σ.indices t).isSome → (σ'.indices t).isSome := by
  intro fuel
  induction fuel with
  | zero =>
      intro state σ σ' h
      rw [AsyncAnalyzerTarjan.strongconnect] at h
      exact absurd h (by simp)
  | succ fuel ih =>
      intro state σ σ' h t ht
      rw [AsyncAnalyzerTarjan.strongconnect] at h
      cases hsl : AsyncAnalyzerTarjan.scLoop net
          (AsyncAnalyzerTarjan.strongconnect net fuel) state
          (net.async_successors state)
          (AsyncAnalyzerTarjan.visitState state σ) with
      | none =>
          rw [hsl] at h
          exact Option.noConfusion h
      | some σ2 =>
          rw [hsl] at h
          have hσ' := Option.some.inj h
          have ht1 : ((AsyncAnalyzerTarjan.visitState state σ).indices t).isSome := by
            by_cases he : t = state
            · subst he
              show (Function.update σ.indices t (some σ.index) t).isSome
              rw [Function.update_same]
              rfl
            · show (Function.update σ.indices state (some σ.index) t).isSome
              rw [Function.update_noteq he]
              exact ht
          have ht2 := scLoop_mono_aux net _ (fun x σa σb hx => ih x σa σb hx)
            _ state _ σ2 hsl t ht1
          rw [← hσ', closeSCC_indices]
          exact ht2

theorem unvisited_mono_card {M : Nat} {f g : Nat → Option Nat}
    (h : ∀ t, (f t).isSome → (g t).isSome) :
    ((Finset.range M).filter fun s => (g s).isNone).card ≤
      ((Finset.range M).filter fun s => (f s).isNone).card := by
  apply Finset.card_le_card
  intro x hx
  simp only [Finset.mem_filter] at hx ⊢
  refine ⟨hx.1, ?_⟩
  cases hfx : f x with
  | none => rfl
  | some v =>
      have hgs := h x (by rw [hfx]; rfl)
      rw [Option.isNone_iff_eq_none.mp hx.2] at hgs
      exact absurd hgs (by simp)

theorem unvisited_update_card {M state : Nat} {f : Nat → Option Nat}
    (hlt : state < M) (hnone : (f state).isNone) (v : Nat) :
    ((Finset.range M).filter fun s =>
        ((Function.update f state (some v)) s).isNone).card + 1 ≤
      ((Finset.range M).filter fun s => (f s).isNone).card := by
  have hmem : state ∈ (Finset.range M).filter fun s => (f s).isNone := by
    simp only [Finset.mem_filter, Finset.mem_range]
    exact ⟨hlt, hnone⟩
  have hsub : (Finset.range M).filter
      (fun s => ((Function.update f state (some v)) s).isNone) ⊆
      ((Finset.range M).filter fun s => (f s).isNone).erase state := by
    intro x hx
    simp only [Finset.mem_filter, Finset.mem_erase, Finset.mem_range] at hx ⊢
    have hxs : x ≠ state := by
      intro he
      subst he
      rw [Function.update_same] at hx
      exact Option.noConfusion (Option.isNone_iff_eq_none.mp hx.2)
    rw [Function.update_noteq hxs] at hx
    exact ⟨hxs, hx.1, hx.2⟩
  have h2 := Finset.card_le_card hsub
  have h3 := Finset.card_erase_of_mem hmem
  have h4 : 0 < ((Finset.range M).filter fun s => (f s).isNone).card :=
    Finset.card_pos.mpr ⟨state, hmem⟩
  omega

theorem scLoop_total_aux (net : BooleanNetwork) (M fuel : Nat)
    (sc : Nat → AsyncAnalyzerTarjan.TarjanState →
      Option AsyncAnalyzerTarjan.TarjanState)
    (hmono : ∀ x σ σx, sc x σ = some σx →
      ∀ t, (σ.indices t).isSome → (σx.indices t).isSome)
    (htot : ∀ x σ, x < M → (σ.indices x).isNone →
      ((Finset.range M).filter fun s => (σ.indices s).isNone).card ≤ fuel →
      (sc x σ).isSome) :
    ∀ (succs : List Nat) (state : Nat) (σ : AsyncAnalyzerTarjan.TarjanState),
      (∀ x ∈ succs, x < M) →
      ((Finset.range M).filter fun s => (σ.indices s).isNone).card ≤ fuel →
      (AsyncAnalyzerTarjan.scLoop net sc state succs σ).isSome := by
  intro succs
  induction succs with
  | nil =>
      intro state σ _ _
      rw [AsyncAnalyzerTarjan.scLoop]
      rfl
  | cons succ rest ih =>
      intro state σ hlt hcard
      rw [AsyncAnalyzerTarjan.scLoop]
      by_cases h1 : (σ.indices succ).isNone
      · rw [if_pos h1]
        have hsome := htot succ σ (hlt succ (List.mem_cons_self succ rest)) h1
          hcard
        obtain ⟨σx, hσx⟩ := Option.isSome_iff_exists.mp hsome
        rw [hσx]
        apply ih state _ (fun x hx => hlt x (List.mem_cons_of_mem succ hx))
        calc ((Finset.range M).filter fun s => (σx.indices s).isNone).card
            ≤ ((Finset.range M).filter fun s => (σ.indices s).isNone).card :=
              unvisited_mono_card (hmono succ σ σx hσx)
          _ ≤ fuel := hcard
      · rw [if_neg h1]
        by_cases h2 : σ.on_stack succ
        · rw [if_pos h2]
          exact ih state _ (fun x hx => hlt x (List.mem_cons_of_mem succ hx))
            hcard
        · rw [if_neg h2]
          exact ih state _ (fun x hx => hlt x (List.mem_cons_of_mem succ hx))
            hcard

theorem strongconnect_total {net : BooleanNetwork} (hwf : WellFormed net) :
    ∀ (fuel state : Nat) (σ : AsyncAnalyzerTarjan.TarjanState),
      state < 2 ^ net.number_of_nodes →
      (σ.indices state).isNone →
      ((Finset.range (2 ^ net.number_of_nodes)).filter
        fun s => (σ.indices s).isNone).card ≤ fuel →
      (AsyncAnalyzerTarjan.strongconnect net fuel state σ).isSome := by
  intro fuel
  induction fuel with
  | zero =>
      intro state σ hlt hnone hcard
      exfalso
      have hmem : state ∈ (Finset.range (2 ^ net.number_of_nodes)).filter
          fun s => (σ.indices s).isNone := by
        simp only [Finset.mem_filter, Finset.mem_range]
        exact ⟨hlt, hnone⟩
      have := Finset.card_pos.mpr ⟨state, hmem⟩
      omega
  | succ fuel ih =>
      intro state σ hlt hnone hcard
      rw [AsyncAnalyzerTarjan.strongconnect]
      have hcard1 : ((Finset.range (2 ^ net.number_of_nodes)).filter
          fun s => (((AsyncAnalyzerTarjan.visitState state σ).indices) s).isNone).card
          ≤ fuel := by
        have h5 := unvisited_update_card (f := σ.indices) hlt hnone σ.index
        have h6 : ((AsyncAnalyzerTarjan.visitState state σ).indices) =
            Function.update σ.indices state (some σ.index) := rfl
        rw [h6]
        omega
      have hsl := scLoop_total_aux net (2 ^ net.number_of_nodes) fuel
        (AsyncAnalyzerTarjan.strongconnect net fuel)
        (fun x σa σb hx => strongconnect_mono net fuel x σa σb hx)
        (fun x σa hx hn hc => ih x σa hx hn hc)
        (net.async_successors state) state
        (AsyncAnalyzerTarjan.visitState state σ)
        (async_successors_lt hwf state) hcard1
      obtain ⟨σ2, hσ2⟩ := Option.isSome_iff_exists.mp hsl
      rw [hσ2]
      rfl

theorem analyze_scc_go_total {net : BooleanNetwork} (hwf : WellFormed net) :
    ∀ (states : List Nat) (σ : AsyncAnalyzerTarjan.TarjanState),
      (∀ x ∈ states, x < 2 ^ net.number_of_nodes) →
      ∃ σ', AsyncAnalyzerTarjan.analyze_scc_go net states σ = some σ' := by
  intro states
  induction states with
  | nil =>
      intro σ _
      exact ⟨σ, rfl⟩
  | cons s rest ih =>
      intro σ hlt
      rw [AsyncAnalyzerTarjan.analyze_scc_go]
      by_cases h1 : (σ.indices s).isNone
      · rw [if_pos h1]
        have hcard : ((Finset.range (2 ^ net.number_of_nodes)).filter
            fun x => (σ.indices x).isNone).card ≤ 2 ^ net.number_of_nodes + 1 := by
          have h2 := Finset.card_filter_le (Finset.range (2 ^ net.number_of_nodes))
            fun x => (σ.indices x).isNone
          rw [Finset.card_range] at h2
          omega
        have hsome := strongconnect_total hwf (2 ^ net.number_of_nodes + 1) s σ
          (hlt s (List.mem_cons_self s rest)) h1 hcard
        obtain ⟨σ1, hσ1⟩ := Option.isSome_iff_exists.mp hsome
        rw [hσ1]
        exact ih σ1 (fun x hx => hlt x (List.mem_cons_of_mem s hx))
      · rw [if_neg h1]
        exact ih σ (fun x hx => hlt x (List.mem_cons_of_mem s hx))

theorem markFold_preserve :
    ∀ (l : List Nat) (m : Nat → Option AsyncRecord) (s : Nat),
      (m s).isSome →
      ((l.foldl (fun m state =>
          if (m state).isSome then m
          else Function.update m state (some ⟨false, none⟩)) m) s).isSome := by
  intro l
  induction l with
  | nil => intro m s h; exact h
  | cons x rest ih =>
      intro m s h
      rw [List.foldl_cons]
      apply ih
      by_cases hx : (m x).isSome
      · rw [if_pos hx]
        exact h
      · rw [if_neg hx]
        by_cases hsx : s = x
        · subst hsx
          rw [Function.update_same]
          rfl
        · rw [Function.update_noteq hsx]
          exact h

theorem markFold_mem :
    ∀ (l : List Nat) (m : Nat → Option AsyncRecord) (s : Nat),
      s ∈ l →
      ((l.foldl (fun m state =>
          if (m state).isSome then m
          else Function.update m state (some ⟨false, none⟩)) m) s).isSome := by
  intro l
  induction l with
  | nil => intro m s h; simp at h
  | cons x rest ih =>
      intro m s h
      rw [List.foldl_cons]
      rcases List.mem_cons.mp h with h1 | h1
      · subst h1
        apply markFold_preserve
        by_cases hx : (m s).isSome
        · rw [if_pos hx]
          exact hx
        · rw [if_neg hx, Function.update_same]
          rfl
      · exact ih _ s h1

theorem markTransients_isSome {num_states : Nat}
    (m : Nat → Option AsyncRecord) {s : Nat} (hs : s < num_states) :
    ((AsyncAnalyzerTarjan.markTransients num_states m) s).isSome :=
  markFold_mem (List.range num_states) m s (List.mem_range.mpr hs)

/-- **C8**: completeness — for every well-formed Boolean network, both
analysis routines return normally (the chosen fuel is sufficient) and, when
they do, every state integer in `[0, 2^N)` has a classification record in the
resulting store; no state is left unclassified. -/
theorem analysis_completeness {net : BooleanNetwork} (hwf : WellFormed net) :
    (∃ σ, StateSpaceAnalyzer.analyze net = some σ ∧
      ∀ s, s < 2 ^ net.number_of_nodes → (σ.state_info s).isSome) ∧
    (∃ res, AsyncAnalyzerTarjan.analyze net = some res ∧
      ∀ s, s < 2 ^ net.number_of_nodes → (res.state_info s).isSome) := by
  constructor
  · obtain ⟨σ, h1, -, h3⟩ := sync_analyze_spec hwf
    exact ⟨σ, h1, h3⟩
  · obtain ⟨σT, hT⟩ := analyze_scc_go_total hwf
      (List.range (2 ^ net.number_of_nodes)) AsyncAnalyzerTarjan.initState
      (fun x hx => List.mem_range.mp hx)
    refine ⟨{ state_info := AsyncAnalyzerTarjan.markTransients
                (2 ^ net.number_of_nodes)
                (AsyncAnalyzerTarjan.assignAttractorIds σT.attractors 0
                  fun _ => none)
              attractors := σT.attractors }, ?_, ?_⟩
    · rw [AsyncAnalyzerTarjan.analyze, hT]
    · intro s hs
      exact markTransients_isSome _ hs

/-- Witness for `analysis_completeness` on the concrete 1-node network. -/
theorem analysis_completeness_witness :
    (StateSpaceAnalyzer.analyze (BooleanNetwork.init 1 [([], [0])])).isSome =
        true ∧
    (AsyncAnalyzerTarjan.analyze (BooleanNetwork.init 1 [([], [0])])).isSome =
        true := by
  obtain ⟨⟨σ, hσ, -⟩, ⟨res, hres, -⟩⟩ :=
    @analysis_completeness (BooleanNetwork.init 1 [([], [0])]) (by decide)
  exact ⟨by rw [hσ]; rfl, by rw [hres]; rfl⟩

/-! ### Tarjan correctness: basic lemmas -/

theorem popSCC_spec (state : Nat) :
    ∀ (l1 l2 : List Nat), state ∉ l1 →
      AsyncAnalyzerTarjan.popSCC state (l1 ++ state :: l2) =
        (l1 ++ [state], l2) := by
  intro l1
  induction l1 with
  | nil =>
      intro l2 _
      rw [List.nil_append, AsyncAnalyzerTarjan.popSCC, if_pos rfl]
      rfl
  | cons x rest ih =>
      intro l2 hx
      have hxs : x ≠ state := fun h => hx (h ▸ List.mem_cons_self x rest)
      rw [List.cons_append, AsyncAnalyzerTarjan.popSCC, if_neg hxs,
        ih l2 (fun h => hx (List.mem_cons_of_mem x h))]
      rfl

theorem offStack_lookup :
    ∀ (scc : List Nat) (f : Nat → Bool) (w : Nat),
      (scc.foldl (fun f w => Function.update f w false) f) w =
        if w ∈ scc then false else f w := by
  intro scc
  induction scc with
  | nil => intro f w; simp
  | cons x rest ih =>
      intro f w
      rw [List.foldl_cons, ih]
      by_cases hw : w ∈ rest
      · rw [if_pos hw, if_pos (List.mem_cons_of_mem x hw)]
      · rw [if_neg hw]
        by_cases hwx : w = x
        · subst hwx
          rw [if_pos (List.mem_cons_self w rest), Function.update_same]
        · rw [if_neg (fun h => (List.mem_cons.mp h).elim hwx hw),
            Function.update_noteq hwx]

theorem Reaches.edge {net : BooleanNetwork} {a b : Nat}
    (h : Edge net a b) : Reaches net a b :=
  Relation.ReflTransGen.single h

theorem Reaches.rfl {net : BooleanNetwork} {a : Nat} : Reaches net a a :=
  Relation.ReflTransGen.refl

theorem reaches_dead {net : BooleanNetwork} {chain : List Nat}
    {σ : AsyncAnalyzerTarjan.TarjanState} (G : TarjanGood net chain σ)
    {v w : Nat} (h : Reaches net v w) :
    (σ.indices v).isSome → v ∉ σ.stack →
      (σ.indices w).isSome ∧ w ∉ σ.stack := by
  refine Relation.ReflTransGen.head_induction_on h ?_ ?_
  · exact fun h1 h2 => ⟨h1, h2⟩
  · intro a c hac _ ih h1 h2
    have := G.dead_closed a h1 h2 c hac
    exact ih this.1 this.2

theorem stack_split {net : BooleanNetwork} {chain : List Nat}
    {σ : AsyncAnalyzerTarjan.TarjanState} (G : TarjanGood net chain σ)
    {r : Nat} (hr : r ∈ σ.stack) :
    ∃ l1 l2, σ.stack = l1 ++ r :: l2 ∧ r ∉ l1 ∧
      (∀ x ∈ l1, tIdx σ r < tIdx σ x) ∧
      (∀ x ∈ l2, tIdx σ x < tIdx σ r) := by
  obtain ⟨l1, l2, hsplit⟩ := List.append_of_mem hr
  have hsort := G.stack_sorted
  have hnd := G.stack_nodup
  rw [hsplit] at hsort hnd
  rcases List.pairwise_append.mp hsort with ⟨-, h2, h3⟩
  rcases List.pairwise_cons.mp h2 with ⟨h4, -⟩
  refine ⟨l1, l2, hsplit, ?_, ?_, h4⟩
  · intro hmem
    rcases List.nodup_append.mp hnd with ⟨-, -, hdisj⟩
    exact hdisj hmem (List.mem_cons_self r l2)
  · intro x hx
    exact h3 x hx r (List.mem_cons_self r l2)

theorem scc_check_iff (net : BooleanNetwork) (l : List Nat) :
    (l.all fun node =>
      (net.async_successors node).all fun succ => decide (succ ∈ l)) = true ↔
    ∀ a ∈ l, ∀ y ∈ net.async_successors a, y ∈ l := by
  simp [List.all_eq_true]

theorem InSameSCC.refl (net : BooleanNetwork) (a : Nat) : InSameSCC net a a :=
  ⟨Relation.ReflTransGen.refl, Relation.ReflTransGen.refl⟩

theorem InSameSCC.symm {net : BooleanNetwork} {a b : Nat}
    (h : InSameSCC net a b) : InSameSCC net b a :=
  ⟨h.2, h.1⟩

theorem InSameSCC.trans {net : BooleanNetwork} {a b c : Nat}
    (h1 : InSameSCC net a b) (h2 : InSameSCC net b c) : InSameSCC net a c :=
  ⟨Relation.ReflTransGen.trans h1.1 h2.1, Relation.ReflTransGen.trans h2.2 h1.2⟩

theorem stack_idx_inj {net : BooleanNetwork} {chain : List Nat}
    {σ : AsyncAnalyzerTarjan.TarjanState} (G : TarjanGood net chain σ)
    {a b : Nat} (ha : a ∈ σ.stack) (hb : b ∈ σ.stack)
    (heq : tIdx σ a = tIdx σ b) : a = b := by
  obtain ⟨l1, l2, hsplit, -, hgt, hlt⟩ := stack_split G ha
  rw [hsplit] at hb
  rcases List.mem_append.mp hb with h | h
  · exact absurd (hgt b h) (by omega)
  · rcases List.mem_cons.mp h with h | h
    · exact h.symm
    · exact absurd (hlt b h) (by omega)

/-- Walking from any vertex of the current root's region (discovery index at
least the root's), a path can only stay in the region or fall off the stack
for good; in particular it cannot land on a stack vertex below the root. -/
theorem crossing_bound {net : BooleanNetwork} {chain : List Nat}
    {σ2 : AsyncAnalyzerTarjan.TarjanState} {r : Nat}
    (G : TarjanGood net chain σ2)
    (hescape : ∀ x, (σ2.indices x).isSome → tIdx σ2 r ≤ tIdx σ2 x →
      ∀ y, Edge net x y → (σ2.indices y).isSome ∧
        (y ∈ σ2.stack → tLow σ2 r ≤ tIdx σ2 y))
    (hroot : tLow σ2 r = tIdx σ2 r) :
    ∀ c z, Reaches net c z →
      (σ2.indices c).isSome →
      (c ∈ σ2.stack → tIdx σ2 r ≤ tIdx σ2 c) →
      (σ2.indices z).isSome ∧ (z ∈ σ2.stack → tIdx σ2 r ≤ tIdx σ2 z) := by
  intro c z h
  refine Relation.ReflTransGen.head_induction_on h ?_ ?_
  · intro h1 h2
    exact ⟨h1, h2⟩
  · intro a b hab _ ih h1 h2
    by_cases hstack : a ∈ σ2.stack
    · have hx := hescape a h1 (h2 hstack) b hab
      refine ih hx.1 ?_
      intro hb
      have h3 := hx.2 hb
      rw [hroot] at h3
      exact h3
    · have hd := G.dead_closed a h1 hstack b hab
      exact ih hd.1 (fun hb => absurd hb hd.2)

/-- At pop time every stack vertex of the root's region reaches the root,
by descending along realizable lowlinks. -/
theorem descent_reaches {net : BooleanNetwork} {ch : List Nat}
    {σ2 : AsyncAnalyzerTarjan.TarjanState} {r : Nat}
    (G : TarjanGood net (r :: ch) σ2)
    (hr_stack : r ∈ σ2.stack)
    (hch_lt : ∀ c ∈ ch, tIdx σ2 c < tIdx σ2 r)
    (hroot : tLow σ2 r = tIdx σ2 r)
    (hescape : ∀ x, (σ2.indices x).isSome → tIdx σ2 r ≤ tIdx σ2 x →
      ∀ y, Edge net x y → (σ2.indices y).isSome ∧
        (y ∈ σ2.stack → tLow σ2 r ≤ tIdx σ2 y)) :
    ∀ n w, w ∈ σ2.stack → tIdx σ2 w = n → tIdx σ2 r ≤ tIdx σ2 w →
      Reaches net w r := by
  intro n
  induction n using Nat.strong_induction_on with
  | _ n ih =>
      intro w hw hwn hwge
      by_cases heq : tIdx σ2 w = tIdx σ2 r
      · rw [stack_idx_inj G hw hr_stack heq]
        exact Relation.ReflTransGen.refl
      · have hwgt : tIdx σ2 r < tIdx σ2 w := by omega
        have hwch : w ∉ r :: ch := by
          intro hmem
          rcases List.mem_cons.mp hmem with h | h
          · subst h
            omega
          · exact absurd (hch_lt w h) (by omega)
        obtain ⟨hlow, z, hz_stack, hz_idx, hz_reach⟩ :=
          G.finished_low w hw hwch
        have hzreg := (crossing_bound G hescape hroot w z hz_reach
          (G.stack_visited w hw) (fun _ => hwge)).2 hz_stack
        have hzr : Reaches net z r := ih (tIdx σ2 z) (by omega) z hz_stack rfl
          hzreg
        exact Relation.ReflTransGen.trans hz_reach hzr

/-- At pop time the root's region on the stack is exactly the root's strongly
connected component. -/
theorem pop_scc_char {net : BooleanNetwork} {ch : List Nat}
    {σ2 : AsyncAnalyzerTarjan.TarjanState} {r : Nat}
    (G : TarjanGood net (r :: ch) σ2)
    (hr_stack : r ∈ σ2.stack)
    (hch_lt : ∀ c ∈ ch, tIdx σ2 c < tIdx σ2 r)
    (hroot : tLow σ2 r = tIdx σ2 r)
    (hregion_reach : ∀ w ∈ σ2.stack, tIdx σ2 r ≤ tIdx σ2 w → Reaches net r w)
    (hescape : ∀ x, (σ2.indices x).isSome → tIdx σ2 r ≤ tIdx σ2 x →
      ∀ y, Edge net x y → (σ2.indices y).isSome ∧
        (y ∈ σ2.stack → tLow σ2 r ≤ tIdx σ2 y))
    {l1 l2 : List Nat} (hsplit : σ2.stack = l1 ++ r :: l2)
    (hl1 : ∀ x ∈ l1, tIdx σ2 r < tIdx σ2 x)
    (hl2 : ∀ x ∈ l2, tIdx σ2 x < tIdx σ2 r) :
    ∀ w, w ∈ l1 ++ [r] ↔ InSameSCC net r w := by
  intro w
  constructor
  · intro hw
    rcases List.mem_append.mp hw with h | h
    · have hw_stack : w ∈ σ2.stack := by
        rw [hsplit]
        exact List.mem_append_left _ h
      have hwge : tIdx σ2 r ≤ tIdx σ2 w := le_of_lt (hl1 w h)
      exact ⟨hregion_reach w hw_stack hwge,
        descent_reaches G hr_stack hch_lt hroot hescape (tIdx σ2 w) w
          hw_stack rfl hwge⟩
    · rw [List.mem_singleton.mp h]
      exact InSameSCC.refl net r
  · rintro ⟨hrw, hwr⟩
    have hvr : (σ2.indices r).isSome := G.stack_visited r hr_stack
    have hwreg := crossing_bound G hescape hroot r w hrw hvr (fun _ => le_rfl)
    have hw_stack : w ∈ σ2.stack := by
      by_contra hdead
      exact (reaches_dead G hwr hwreg.1 hdead).2 hr_stack
    have hwge := hwreg.2 hw_stack
    rw [hsplit] at hw_stack
    rcases List.mem_append.mp hw_stack with h | h
    · exact List.mem_append_left _ h
    · rcases List.mem_cons.mp h with h | h
      · rw [h]
        exact List.mem_append_right _ (List.mem_singleton_self r)
      · exact absurd (hl2 w h) (by omega)

/-- Rebuilding the invariant after popping the root's region `l1 ++ [r]` off
the stack, for any attractor list `A` satisfying the attractor clauses. -/
theorem closeGood {net : BooleanNetwork} {ch : List Nat}
    {σ2 : AsyncAnalyzerTarjan.TarjanState} {r : Nat} {l1 l2 : List Nat}
    (G : TarjanGood net (r :: ch) σ2)
    (hsplit : σ2.stack = l1 ++ r :: l2)
    (hl1gt : ∀ x ∈ l1, tIdx σ2 r < tIdx σ2 x)
    (hl2lt : ∀ x ∈ l2, tIdx σ2 x < tIdx σ2 r)
    (hch_lt : ∀ c ∈ ch, tIdx σ2 c < tIdx σ2 r)
    (hroot : tLow σ2 r = tIdx σ2 r)
    (hsucc_r : ∀ y ∈ net.async_successors r, (σ2.indices y).isSome)
    (hescape : ∀ x, (σ2.indices x).isSome → tIdx σ2 r ≤ tIdx σ2 x →
      ∀ y, Edge net x y → (σ2.indices y).isSome ∧
        (y ∈ σ2.stack → tLow σ2 r ≤ tIdx σ2 y))
    (A : List (List Nat))
    (hA1 : ∀ l ∈ A, ∀ w ∈ l, (σ2.indices w).isSome ∧ w ∉ l2 ∧
      ∀ w', w' ∈ l ↔ InSameSCC net w w')
    (hA2 : ∀ v, (σ2.indices v).isSome → v ∉ l2 →
      ((∀ t u, InSameSCC net v t → Edge net t u → InSameSCC net v u) ↔
        ∃ l ∈ A, v ∈ l))
    (hA3 : A.Pairwise fun la lb => ∀ w, w ∈ la → w ∉ lb) :
    TarjanGood net ch
      { index := σ2.index, stack := l2, indices := σ2.indices,
        lowlink := σ2.lowlink,
        on_stack := (l1 ++ [r]).foldl (fun f w => Function.update f w false)
          σ2.on_stack,
        attractors := A } := by
  have hnd := G.stack_nodup
  rw [hsplit] at hnd
  rcases List.nodup_append.mp hnd with ⟨hnd1, hnd2, hdisj⟩
  rcases List.nodup_cons.mp hnd2 with ⟨hrl2, hndl2⟩
  have hPl2 : ∀ w, w ∈ l1 ++ [r] → w ∉ l2 := by
    intro w hw hwl2
    rcases List.mem_append.mp hw with h | h
    · exact hdisj h (List.mem_cons_of_mem r hwl2)
    · exact hrl2 (List.mem_singleton.mp h ▸ hwl2)
  have hstack_mem : ∀ w, w ∈ σ2.stack ↔ w ∈ l1 ++ [r] ∨ w ∈ l2 := by
    intro w
    rw [hsplit]
    constructor
    · intro h
      rcases List.mem_append.mp h with h | h
      · exact Or.inl (List.mem_append_left _ h)
      · rcases List.mem_cons.mp h with h | h
        · exact Or.inl (List.mem_append_right _ (h ▸ List.mem_singleton_self r))
        · exact Or.inr h
    · intro h
      rcases h with h | h
      · rcases List.mem_append.mp h with h | h
        · exact List.mem_append_left _ h
        · rw [List.mem_singleton.mp h]
          exact List.mem_append_right _ (List.mem_cons_self r l2)
      · exact List.mem_append_right _ (List.mem_cons_of_mem r h)
  have hl2sub : ∀ w ∈ l2, w ∈ σ2.stack := fun w hw =>
    (hstack_mem w).mpr (Or.inr hw)
  have hPsub : ∀ w ∈ l1 ++ [r], w ∈ σ2.stack := fun w hw =>
    (hstack_mem w).mpr (Or.inl hw)
  have hPidx : ∀ w ∈ l1 ++ [r], tIdx σ2 r ≤ tIdx σ2 w := by
    intro w hw
    rcases List.mem_append.mp hw with h | h
    · exact le_of_lt (hl1gt w h)
    · rw [List.mem_singleton.mp h]
  refine ⟨?_, ?_, ?_, ?_, ?_, ?_, ?_, ?_, ?_, ?_, ?_, ?_⟩
  · -- stack_flag
    intro v
    show ((l1 ++ [r]).foldl (fun f w => Function.update f w false)
      σ2.on_stack v = true) ↔ v ∈ l2
    rw [offStack_lookup]
    by_cases hv : v ∈ l1 ++ [r]
    · rw [if_pos hv]
      constructor
      · intro h
        exact absurd h (by simp)
      · intro h
        exact absurd h (hPl2 v hv)
    · rw [if_neg hv, G.stack_flag v]
      rw [hstack_mem v]
      constructor
      · intro h
        exact h.elim (fun h => absurd h hv) id
      · exact Or.inr
  · exact hndl2
  · exact fun v hv => G.stack_visited v (hl2sub v hv)
  · -- stack_sorted
    have hs := G.stack_sorted
    rw [hsplit] at hs
    exact ((List.pairwise_append.mp hs).2.1).of_cons
  · exact G.visited_lt
  · -- chain_sub
    intro c hc
    have hcs := G.chain_sub c (List.mem_cons_of_mem r hc)
    rcases (hstack_mem c).mp hcs with h | h
    · exact absurd (hPidx c h) (by have := hch_lt c hc; omega)
    · exact h
  · -- finished_succ
    intro v hv hvch y hy
    by_cases hvr : v = r
    · exact hsucc_r y (hvr ▸ hy)
    · exact G.finished_succ v hv
        (fun h => (List.mem_cons.mp h).elim hvr hvch) y hy
  · -- dead_closed
    intro v hv hvl2 y hy
    by_cases hvstack : v ∈ σ2.stack
    · have hvP : v ∈ l1 ++ [r] := ((hstack_mem v).mp hvstack).resolve_right hvl2
      have hx := hescape v hv (hPidx v hvP) y hy
      refine ⟨hx.1, ?_⟩
      intro hyl2
      have h2 := hx.2 (hl2sub y hyl2)
      rw [hroot] at h2
      exact absurd (hl2lt y hyl2) (by omega)
    · have hd := G.dead_closed v hv hvstack y hy
      exact ⟨hd.1, fun h => hd.2 (hl2sub y h)⟩
  · -- finished_low
    intro w hw hwch
    have hwst := hl2sub w hw
    have hwnotr : w ≠ r := fun h => hrl2 (h ▸ hw)
    obtain ⟨hlow, z, hz_st, hz_idx, hz_r⟩ := G.finished_low w hwst
      (fun h => (List.mem_cons.mp h).elim hwnotr hwch)
    refine ⟨hlow, z, ?_, hz_idx, hz_r⟩
    rcases (hstack_mem z).mp hz_st with h | h
    · exact absurd (hPidx z h) (by have := hl2lt w hw; omega)
    · exact h
  · -- attr_mem
    exact hA1
  · -- attr_complete
    exact hA2
  · -- attr_disjoint
    exact hA3

theorem append_cons_unique {r : Nat} :
    ∀ (p1 : List Nat) {p2 q1 q2 : List Nat},
      p1 ++ r :: p2 = q1 ++ r :: q2 → r ∉ p1 → r ∉ q1 → p1 = q1 ∧ p2 = q2 := by
  intro p1
  induction p1 with
  | nil =>
      intro p2 q1 q2 h hp hq
      cases q1 with
      | nil => simpa using h
      | cons a qt =>
          rw [List.nil_append, List.cons_append] at h
          injection h with h1 h2
          exact absurd (h1 ▸ List.mem_cons_self a qt) hq
  | cons x pt ih =>
      intro p2 q1 q2 h hp hq
      cases q1 with
      | nil =>
          rw [List.cons_append, List.nil_append] at h
          injection h with h1 h2
          exact absurd (h1 ▸ List.mem_cons_self x pt) hp
      | cons a qt =>
          rw [List.cons_append, List.cons_append] at h
          injection h with h1 h2
          obtain ⟨h3, h4⟩ := ih h2 (fun hh => hp (List.mem_cons_of_mem x hh))
            (fun hh => hq (List.mem_cons_of_mem a hh))
          exact ⟨by rw [h1, h3], h4⟩

/-- Full specification of `closeSCC` when called on a vertex `r` whose
successors have all been processed: the invariant moves from chain `r :: ch`
to chain `ch`; if `r` is a root its region is popped and is exactly its SCC,
recorded as an attractor exactly when it is terminal. -/
theorem closeSCC_spec {net : BooleanNetwork} {ch : List Nat}
    {σ2 : AsyncAnalyzerTarjan.TarjanState} {r : Nat}
    (G : TarjanGood net (r :: ch) σ2)
    (hr_stack : r ∈ σ2.stack)
    (hch_lt : ∀ c ∈ ch, tIdx σ2 c < tIdx σ2 r)
    (hlow_some : (σ2.lowlink r).isSome)
    (hlow_le : tLow σ2 r ≤ tIdx σ2 r)
    (hlow_real : tLow σ2 r < tIdx σ2 r →
      ∃ z ∈ σ2.stack, tIdx σ2 z = tLow σ2 r ∧ Reaches net r z)
    (hsucc_r : ∀ y ∈ net.async_successors r, (σ2.indices y).isSome)
    (hregion_reach : ∀ w ∈ σ2.stack, tIdx σ2 r ≤ tIdx σ2 w → Reaches net r w)
    (hescape : ∀ x, (σ2.indices x).isSome → tIdx σ2 r ≤ tIdx σ2 x →
      ∀ y, Edge net x y → (σ2.indices y).isSome ∧
        (y ∈ σ2.stack → tLow σ2 r ≤ tIdx σ2 y)) :
    TarjanGood net ch (AsyncAnalyzerTarjan.closeSCC net r σ2) ∧
    (AsyncAnalyzerTarjan.closeSCC net r σ2).indices = σ2.indices ∧
    (AsyncAnalyzerTarjan.closeSCC net r σ2).lowlink = σ2.lowlink ∧
    (AsyncAnalyzerTarjan.closeSCC net r σ2).index = σ2.index ∧
    (∀ w ∈ (AsyncAnalyzerTarjan.closeSCC net r σ2).stack, w ∈ σ2.stack) ∧
    ((tLow σ2 r < tIdx σ2 r ∧
        (AsyncAnalyzerTarjan.closeSCC net r σ2).stack = σ2.stack) ∨
      (tLow σ2 r = tIdx σ2 r ∧
        r ∉ (AsyncAnalyzerTarjan.closeSCC net r σ2).stack ∧
        ∀ p1 p2, σ2.stack = p1 ++ r :: p2 → r ∉ p1 →
          (AsyncAnalyzerTarjan.closeSCC net r σ2).stack = p2)) := by
  have hvr := G.stack_visited r hr_stack
  obtain ⟨iv, hiv⟩ := Option.isSome_iff_exists.mp hvr
  obtain ⟨lw, hlw⟩ := Option.isSome_iff_exists.mp hlow_some
  obtain ⟨l1, l2, hsplit, hrl1, hl1gt, hl2lt⟩ := stack_split G hr_stack
  have hnd := G.stack_nodup
  rw [hsplit] at hnd
  rcases List.nodup_append.mp hnd with ⟨-, hnd2, hdisj⟩
  rcases List.nodup_cons.mp hnd2 with ⟨hrl2, -⟩
  have hPl2 : ∀ w, w ∈ l1 ++ [r] → w ∉ l2 := by
    intro w hw hwl2
    rcases List.mem_append.mp hw with h | h
    · exact hdisj h (List.mem_cons_of_mem r hwl2)
    · exact hrl2 (List.mem_singleton.mp h ▸ hwl2)
  have hPsub : ∀ w ∈ l1 ++ [r], w ∈ σ2.stack := by
    intro w hw
    rw [hsplit]
    rcases List.mem_append.mp hw with h | h
    · exact List.mem_append_left _ h
    · rw [List.mem_singleton.mp h]
      exact List.mem_append_right _ (List.mem_cons_self r l2)
  have hPidx : ∀ w ∈ l1 ++ [r], tIdx σ2 r ≤ tIdx σ2 w := by
    intro w hw
    rcases List.mem_append.mp hw with h | h
    · exact le_of_lt (hl1gt w h)
    · rw [List.mem_singleton.mp h]
  have hl2sub : ∀ w ∈ l2, w ∈ σ2.stack := by
    intro w hw
    rw [hsplit]
    exact List.mem_append_right _ (List.mem_cons_of_mem r hw)
  by_cases hcond : σ2.lowlink r = σ2.indices r
  · -- root case: the region is popped
    have hroot : tLow σ2 r = tIdx σ2 r := by
      unfold tLow tIdx
      rw [hcond]
    have hP := pop_scc_char G hr_stack hch_lt hroot hregion_reach hescape
      hsplit hl1gt hl2lt
    have hrP : r ∈ l1 ++ [r] :=
      List.mem_append_right _ (List.mem_singleton_self r)
    have hstack_cases : ∀ w ∈ σ2.stack, w ∈ l1 ++ [r] ∨ w ∈ l2 := by
      intro w hw
      rw [hsplit] at hw
      rcases List.mem_append.mp hw with h | h
      · exact Or.inl (List.mem_append_left _ h)
      · rcases List.mem_cons.mp h with h | h
        · exact Or.inl (h ▸ hrP)
        · exact Or.inr h
    have hA1old : ∀ l ∈ σ2.attractors, ∀ w ∈ l,
        (σ2.indices w).isSome ∧ w ∉ l2 ∧
          ∀ w', w' ∈ l ↔ InSameSCC net w w' := by
      intro l hl w hw
      obtain ⟨h1, h2, h3⟩ := G.attr_mem l hl w hw
      refine ⟨h1, fun hwl2 => h2 ?_, h3⟩
      rw [hsplit]
      exact List.mem_append_right _ (List.mem_cons_of_mem r hwl2)
    have hA1new : ∀ w ∈ l1 ++ [r],
        (σ2.indices w).isSome ∧ w ∉ l2 ∧
          ∀ w', w' ∈ l1 ++ [r] ↔ InSameSCC net w w' := by
      intro w hw
      have hrw : InSameSCC net r w := (hP w).mp hw
      refine ⟨G.stack_visited w (hPsub w hw), hPl2 w hw, ?_⟩
      intro w'
      rw [hP w']
      exact ⟨fun h => hrw.symm.trans h, fun h => hrw.trans h⟩
    have hred : AsyncAnalyzerTarjan.closeSCC net r σ2 =
        (if (l1 ++ [r]).all (fun node =>
            (net.async_successors node).all fun succ =>
              decide (succ ∈ l1 ++ [r])) = true then
          { index := σ2.index, stack := l2, indices := σ2.indices,
            lowlink := σ2.lowlink,
            on_stack := (l1 ++ [r]).foldl
              (fun f w => Function.update f w false) σ2.on_stack,
            attractors := σ2.attractors ++ [l1 ++ [r]] }
         else
          { index := σ2.index, stack := l2, indices := σ2.indices,
            lowlink := σ2.lowlink,
            on_stack := (l1 ++ [r]).foldl
              (fun f w => Function.update f w false) σ2.on_stack,
            attractors := σ2.attractors }) := by
      rw [AsyncAnalyzerTarjan.closeSCC, if_pos hcond, hsplit,
        popSCC_spec r l1 l2 hrl1]
    have hstackchar : ∀ p1 p2, σ2.stack = p1 ++ r :: p2 → r ∉ p1 → l2 = p2 := by
      intro p1 p2 hp hrp1
      exact (append_cons_unique l1 (hsplit ▸ hp) hrl1 hrp1).2
    rw [hred]
    by_cases hcheck : (l1 ++ [r]).all (fun node =>
        (net.async_successors node).all fun succ =>
          decide (succ ∈ l1 ++ [r])) = true
    · rw [if_pos hcheck]
      have hclosed := (scc_check_iff net (l1 ++ [r])).mp hcheck
      refine ⟨?_, rfl, rfl, rfl, fun w hw => hl2sub w hw,
        Or.inr ⟨hroot, hrl2, hstackchar⟩⟩
      · refine closeGood G hsplit hl1gt hl2lt hch_lt hroot hsucc_r hescape _
          ?_ ?_ ?_
        · intro l hl
          rcases List.mem_append.mp hl with h | h
          · exact hA1old l h
          · rw [List.mem_singleton.mp h]
            exact hA1new
        · intro v hv hvl2
          by_cases hv_stack : v ∈ σ2.stack
          · have hvP : v ∈ l1 ++ [r] :=
              (hstack_cases v hv_stack).resolve_right hvl2
            have hrv : InSameSCC net r v := (hP v).mp hvP
            refine iff_of_true ?_ ⟨l1 ++ [r],
              List.mem_append_right _ (List.mem_singleton_self _), hvP⟩
            intro t u hvt htu
            have htP : t ∈ l1 ++ [r] := (hP t).mpr (hrv.trans hvt)
            have huP : u ∈ l1 ++ [r] := hclosed t htP u htu
            exact hrv.symm.trans ((hP u).mp huP)
          · rw [G.attr_complete v hv hv_stack]
            constructor
            · rintro ⟨l, hl, hvl⟩
              exact ⟨l, List.mem_append_left _ hl, hvl⟩
            · rintro ⟨l, hl, hvl⟩
              rcases List.mem_append.mp hl with h | h
              · exact ⟨l, h, hvl⟩
              · rw [List.mem_singleton.mp h] at hvl
                exact absurd (hPsub v hvl) hv_stack
        · refine List.pairwise_append.mpr ⟨G.attr_disjoint,
            List.pairwise_singleton _ _, ?_⟩
          intro l hl p' hp' w hwl
          rw [List.mem_singleton.mp hp']
          intro hwP
          exact (G.attr_mem l hl w hwl).2.1 (hPsub w hwP)
    · rw [if_neg hcheck]
      have hex : ∃ a ∈ l1 ++ [r], ∃ y ∈ net.async_successors a,
          y ∉ l1 ++ [r] := by
        by_contra hno
        apply hcheck
        rw [scc_check_iff]
        intro a ha y hy
        by_contra hyP
        exact hno ⟨a, ha, y, hy, hyP⟩
      obtain ⟨a, haP, y, hy, hyP⟩ := hex
      refine ⟨?_, rfl, rfl, rfl, fun w hw => hl2sub w hw,
        Or.inr ⟨hroot, hrl2, hstackchar⟩⟩
      · refine closeGood G hsplit hl1gt hl2lt hch_lt hroot hsucc_r hescape _
          hA1old ?_ G.attr_disjoint
        intro v hv hvl2
        by_cases hv_stack : v ∈ σ2.stack
        · have hvP : v ∈ l1 ++ [r] :=
            (hstack_cases v hv_stack).resolve_right hvl2
          have hrv : InSameSCC net r v := (hP v).mp hvP
          refine iff_of_false ?_ ?_
          · intro hterm
            have hva : InSameSCC net v a := hrv.symm.trans ((hP a).mp haP)
            have := hterm a y hva hy
            exact hyP ((hP y).mpr (hrv.trans this))
          · rintro ⟨l, hl, hvl⟩
            exact (G.attr_mem l hl v hvl).2.1 hv_stack
        · rw [G.attr_complete v hv hv_stack]
  · -- non-root case: nothing is popped
    have hne : tLow σ2 r ≠ tIdx σ2 r := by
      intro h
      apply hcond
      rw [hlw, hiv]
      unfold tLow tIdx at h
      rw [hlw, hiv] at h
      simpa using h
    have hlt : tLow σ2 r < tIdx σ2 r := lt_of_le_of_ne hlow_le hne
    have hred : AsyncAnalyzerTarjan.closeSCC net r σ2 = σ2 := by
      rw [AsyncAnalyzerTarjan.closeSCC, if_neg hcond]
    rw [hred]
    refine ⟨?_, rfl, rfl, rfl, fun w hw => hw, Or.inl ⟨hlt, rfl⟩⟩
    refine ⟨G.stack_flag, G.stack_nodup, G.stack_visited, G.stack_sorted,
      G.visited_lt, ?_, ?_, G.dead_closed, ?_, G.attr_mem, G.attr_complete,
      G.attr_disjoint⟩
    · exact fun c hc => G.chain_sub c (List.mem_cons_of_mem r hc)
    · intro v hv hvch y hy
      by_cases hvr2 : v = r
      · exact hsucc_r y (hvr2 ▸ hy)
      · exact G.finished_succ v hv
          (fun h => (List.mem_cons.mp h).elim hvr2 hvch) y hy
    · intro w hw hwch
      by_cases hwr : w = r
      · subst hwr
        exact ⟨hlt, hlow_real hlt⟩
      · exact G.finished_low w hw
          (fun h => (List.mem_cons.mp h).elim hwr hwch)

/-- Pushing a fresh vertex preserves and extends the invariant: the chain
grows by the new vertex. -/
theorem visitGood {net : BooleanNetwork} {ch : List Nat}
    {σ : AsyncAnalyzerTarjan.TarjanState} {v : Nat}
    (G : TarjanGood net ch σ) (hv : σ.indices v = none) :
    TarjanGood net (v :: ch) (AsyncAnalyzerTarjan.visitState v σ) := by
  have hvstack : v ∉ σ.stack := by
    intro hmem
    have h := G.stack_visited v hmem
    rw [hv] at h
    exact Bool.noConfusion h
  have hidx_pres : ∀ t, t ≠ v →
      (AsyncAnalyzerTarjan.visitState v σ).indices t = σ.indices t := by
    intro t ht
    exact Function.update_noteq ht _ _
  have htIdx_pres : ∀ t, t ≠ v →
      tIdx (AsyncAnalyzerTarjan.visitState v σ) t = tIdx σ t := by
    intro t ht
    unfold tIdx
    rw [hidx_pres t ht]
  have htIdx_v : tIdx (AsyncAnalyzerTarjan.visitState v σ) v = σ.index := by
    unfold tIdx
    show (Function.update σ.indices v (some σ.index) v).getD 0 = σ.index
    rw [Function.update_same]
    rfl
  have hvis' : ∀ t, ((AsyncAnalyzerTarjan.visitState v σ).indices t).isSome ↔
      (σ.indices t).isSome ∨ t = v := by
    intro t
    by_cases ht : t = v
    · subst ht
      show (Function.update σ.indices t (some σ.index) t).isSome ↔ _
      rw [Function.update_same]
      simp
    · show (Function.update σ.indices v (some σ.index) t).isSome ↔ _
      rw [Function.update_noteq ht]
      simp [ht]
  have hne_of_vis : ∀ t, (σ.indices t).isSome → t ≠ v := by
    intro t ht he
    rw [he, hv] at ht
    exact Bool.noConfusion ht
  refine ⟨?_, ?_, ?_, ?_, ?_, ?_, ?_, ?_, ?_, ?_, ?_, ?_⟩
  · -- stack_flag
    intro w
    show Function.update σ.on_stack v true w = true ↔ w ∈ v :: σ.stack
    by_cases hw : w = v
    · subst hw
      rw [Function.update_same]
      simp
    · rw [Function.update_noteq hw, G.stack_flag w]
      simp [hw]
  · exact List.nodup_cons.mpr ⟨hvstack, G.stack_nodup⟩
  · intro w hw
    rcases List.mem_cons.mp hw with h | h
    · subst h
      rw [(hvis' w).mpr (Or.inr rfl)]
    · rw [(hvis' w).mpr (Or.inl (G.stack_visited w h))]
  · -- stack_sorted
    show (v :: σ.stack).Pairwise _
    rw [List.pairwise_cons]
    constructor
    · intro w hw
      rw [htIdx_v, htIdx_pres w (hne_of_vis w (G.stack_visited w hw))]
      exact G.visited_lt w (G.stack_visited w hw)
    · refine G.stack_sorted.imp_of_mem ?_
      intro a b ha hb h
      rw [htIdx_pres a (hne_of_vis a (G.stack_visited a ha)),
        htIdx_pres b (hne_of_vis b (G.stack_visited b hb))]
      exact h
  · -- visited_lt
    intro w hw
    show tIdx _ w < σ.index + 1
    rcases (hvis' w).mp hw with h | h
    · rw [htIdx_pres w (hne_of_vis w h)]
      have := G.visited_lt w h
      omega
    · subst h
      rw [htIdx_v]
      omega
  · -- chain_sub
    intro c hc
    rcases List.mem_cons.mp hc with h | h
    · subst h
      exact List.mem_cons_self c σ.stack
    · exact List.mem_cons_of_mem v (G.chain_sub c h)
  · -- finished_succ
    intro w hw hwch y hy
    have hwv : w ≠ v := fun h => hwch (h ▸ List.mem_cons_self v ch)
    rcases (hvis' w).mp hw with h | h
    · rw [hvis' y]
      exact Or.inl (G.finished_succ w h
        (fun hc => hwch (List.mem_cons_of_mem v hc)) y hy)
    · exact absurd h hwv
  · -- dead_closed
    intro w hw hwstack y hy
    have hwv : w ≠ v := fun h => hwstack (h ▸ List.mem_cons_self v σ.stack)
    rcases (hvis' w).mp hw with h | h
    · have hd := G.dead_closed w h
        (fun hc => hwstack (List.mem_cons_of_mem v hc)) y hy
      refine ⟨(hvis' y).mpr (Or.inl hd.1), ?_⟩
      intro hc
      rcases List.mem_cons.mp hc with h2 | h2
      · exact hne_of_vis y hd.1 h2
      · exact hd.2 h2
    · exact absurd h hwv
  · -- finished_low
    intro w hw hwch
    have hwv : w ≠ v := fun h => hwch (h ▸ List.mem_cons_self v ch)
    have hwst : w ∈ σ.stack := (List.mem_cons.mp hw).resolve_left hwv
    obtain ⟨h1, z, hz1, hz2, hz3⟩ := G.finished_low w hwst
      (fun hc => hwch (List.mem_cons_of_mem v hc))
    have hlow_pres : tLow (AsyncAnalyzerTarjan.visitState v σ) w = tLow σ w := by
      unfold tLow
      show (Function.update σ.lowlink v (some σ.index) w).getD 0 = _
      rw [Function.update_noteq hwv]
    refine ⟨?_, z, List.mem_cons_of_mem v hz1, ?_, hz3⟩
    · rw [hlow_pres, htIdx_pres w hwv]
      exact h1
    · rw [hlow_pres, htIdx_pres z (hne_of_vis z (G.stack_visited z hz1))]
      exact hz2
  · -- attr_mem
    intro l hl w hw
    obtain ⟨h1, h2, h3⟩ := G.attr_mem l hl w hw
    refine ⟨(hvis' w).mpr (Or.inl h1), ?_, h3⟩
    intro hc
    rcases List.mem_cons.mp hc with h4 | h4
    · exact hne_of_vis w h1 h4
    · exact h2 h4
  · -- attr_complete
    intro w hw hwstack
    have hwv : w ≠ v := fun h => hwstack (h ▸ List.mem_cons_self v σ.stack)
    rcases (hvis' w).mp hw with h | h
    · exact G.attr_complete w h
        (fun hc => hwstack (List.mem_cons_of_mem v hc))
    · exact absurd h hwv
  · exact G.attr_disjoint

/-- Overwriting the lowlink of a chain vertex preserves the invariant:
only `finished_low` mentions lowlinks, and it quantifies over off-chain
vertices. -/
theorem lowlink_update_good {net : BooleanNetwork} {ch : List Nat}
    {σ : AsyncAnalyzerTarjan.TarjanState} {state : Nat}
    (G : TarjanGood net ch σ) (hch : state ∈ ch) (val : Option Nat) :
    TarjanGood net ch
      { σ with lowlink := Function.update σ.lowlink state val } := by
  refine ⟨G.stack_flag, G.stack_nodup, G.stack_visited, G.stack_sorted,
    G.visited_lt, G.chain_sub, G.finished_succ, G.dead_closed, ?_,
    G.attr_mem, G.attr_complete, G.attr_disjoint⟩
  intro w hw hwch
  have hws : w ≠ state := fun h => hwch (h ▸ hch)
  obtain ⟨h1, z, hz1, hz2, hz3⟩ := G.finished_low w hw hwch
  have hlw : tLow { σ with lowlink := Function.update σ.lowlink state val } w
      = tLow σ w := by
    unfold tLow
    show (Function.update σ.lowlink state val w).getD 0 = _
    rw [Function.update_noteq hws]
  refine ⟨?_, z, hz1, ?_, hz3⟩
  · rw [hlw]
    exact h1
  · rw [hlw]
    exact hz2

theorem foldMin_lowlink_state (state val : Nat)
    (σ : AsyncAnalyzerTarjan.TarjanState) :
    (foldMin state val σ).lowlink state = some (min (tLow σ state) val) := by
  show Function.update σ.lowlink state (some (min (tLow σ state) val)) state = _
  rw [Function.update_same]

theorem foldMin_tLow (state val : Nat) (σ : AsyncAnalyzerTarjan.TarjanState) :
    tLow (foldMin state val σ) state = min (tLow σ state) val := by
  unfold tLow
  rw [foldMin_lowlink_state]
  rfl

theorem foldMin_lowlink_ne {σ : AsyncAnalyzerTarjan.TarjanState}
    {state t : Nat} (val : Nat) (ht : t ≠ state) :
    (foldMin state val σ).lowlink t = σ.lowlink t :=
  Function.update_noteq ht _ _

theorem foldMin_tIdx (state val : Nat) (σ : AsyncAnalyzerTarjan.TarjanState)
    (t : Nat) : tIdx (foldMin state val σ) t = tIdx σ t := rfl

/-- The accumulator invariant survives one lowlink fold, provided a strictly
smaller folded value is itself realizable by a stack vertex reachable from
`state`. -/
theorem foldMin_acc {net : BooleanNetwork}
    {σ : AsyncAnalyzerTarjan.TarjanState} {state : Nat}
    (hle : tLow σ state ≤ tIdx σ state)
    (hacc : tLow σ state = tIdx σ state ∨ (tLow σ state < tIdx σ state ∧
      ∃ z ∈ σ.stack, tIdx σ z = tLow σ state ∧ Reaches net state z))
    {val : Nat}
    (hval : val < tIdx σ state →
      ∃ z ∈ σ.stack, tIdx σ z = val ∧ Reaches net state z) :
    tLow (foldMin state val σ) state = tIdx (foldMin state val σ) state ∨
    (tLow (foldMin state val σ) state < tIdx (foldMin state val σ) state ∧
      ∃ z ∈ (foldMin state val σ).stack,
        tIdx (foldMin state val σ) z = tLow (foldMin state val σ) state ∧
        Reaches net state z) := by
  have hstk : (foldMin state val σ).stack = σ.stack := rfl
  simp only [foldMin_tLow, foldMin_tIdx, hstk]
  by_cases hmi : min (tLow σ state) val = tIdx σ state
  · exact Or.inl hmi
  · have hmlt : min (tLow σ state) val < tIdx σ state :=
      lt_of_le_of_ne (le_trans (min_le_left _ _) hle) hmi
    refine Or.inr ⟨hmlt, ?_⟩
    rcases le_total (tLow σ state) val with hab | hba
    · rw [min_eq_left hab] at hmlt ⊢
      rcases hacc with h5 | ⟨-, z, hz, hzi, hzr⟩
      · omega
      · exact ⟨z, hz, hzi, hzr⟩
    · rw [min_eq_right hba] at hmlt ⊢
      obtain ⟨z, hz, hzi, hzr⟩ := hval hmlt
      exact ⟨z, hz, hzi, hzr⟩

/-- The successor loop of `strongconnect` satisfies `LoopSpec`, assuming every
nested recursive call on a fresh vertex satisfies `SCSpec`. -/
theorem scLoop_spec {net : BooleanNetwork} {rest : List Nat} {state : Nat}
    (sc : Nat → AsyncAnalyzerTarjan.TarjanState →
      Option AsyncAnalyzerTarjan.TarjanState)
    (hsc : ∀ v σ σx, TarjanGood net (state :: rest) σ → σ.indices v = none →
      sc v σ = some σx → SCSpec net (state :: rest) v σ σx) :
    ∀ (succs : List Nat) (σ σ2 : AsyncAnalyzerTarjan.TarjanState),
      (∀ y ∈ succs, Edge net state y) →
      TarjanGood net (state :: rest) σ →
      (σ.lowlink state).isSome →
      tLow σ state ≤ tIdx σ state →
      (tLow σ state = tIdx σ state ∨
        (tLow σ state < tIdx σ state ∧
          ∃ z ∈ σ.stack, tIdx σ z = tLow σ state ∧ Reaches net state z)) →
      AsyncAnalyzerTarjan.scLoop net sc state succs σ = some σ2 →
      LoopSpec net rest state succs σ σ2 := by
  intro succs
  induction succs with
  | nil =>
      intro σ σ2 _ G hlow hle hacc h
      rw [AsyncAnalyzerTarjan.scLoop] at h
      obtain rfl := Option.some.inj h
      exact ⟨G, le_rfl, fun t _ => rfl, fun t _ _ => rfl,
        fun w hw => Or.inl hw, fun w hw hw2 => absurd hw2 hw,
        ⟨[], rfl, fun w hw => absurd hw (List.not_mem_nil w)⟩,
        fun x hx hx2 => absurd hx2 hx,
        fun y hy => absurd hy (List.not_mem_nil y), le_rfl, hlow, hacc⟩
  | cons succ tail ih =>
      intro σ σ2 hsuccs G hlow hle hacc h
      have hstate_ch : state ∈ state :: rest := List.mem_cons_self state rest
      have hstate_stk : state ∈ σ.stack := G.chain_sub state hstate_ch
      have hstate_vis : (σ.indices state).isSome :=
        G.stack_visited state hstate_stk
      have hedge : Edge net state succ :=
        hsuccs succ (List.mem_cons_self succ tail)
      have htail : ∀ y ∈ tail, Edge net state y :=
        fun y hy => hsuccs y (List.mem_cons_of_mem succ hy)
      rw [AsyncAnalyzerTarjan.scLoop] at h
      by_cases h1 : (σ.indices succ).isNone
      · rw [if_pos h1] at h
        cases hcall : sc succ σ with
        | none =>
            rw [hcall] at h
            exact Option.noConfusion h
        | some σ' =>
            rw [hcall] at h
            obtain ⟨G', hII, hIP, hLP, hVS, hIS, hRW, hFG,
              ⟨NEW, hNE, hNF⟩, hESC, hLSo, hLL, hVIN, hVOUT⟩ :=
              hsc succ σ σ' G (Option.isNone_iff_eq_none.mp h1) hcall
            have h3 : AsyncAnalyzerTarjan.scLoop net sc state tail
                (foldMin state (tLow σ' succ) σ') = some σ2 := h
            have hidx_state : σ'.indices state = σ.indices state :=
              hIP state hstate_vis
            have hlow_state : σ'.lowlink state = σ.lowlink state :=
              hLP state hstate_vis
            have htIdx_state : tIdx σ' state = tIdx σ state := by
              unfold tIdx
              rw [hidx_state]
            have htLow_state : tLow σ' state = tLow σ state := by
              unfold tLow
              rw [hlow_state]
            have hvis3 : ∀ t, (σ.indices t).isSome → (σ'.indices t).isSome :=
              fun t ht => by rw [hIP t ht]; exact ht
            have G3 : TarjanGood net (state :: rest)
                (foldMin state (tLow σ' succ) σ') :=
              lowlink_update_good G' hstate_ch _
            have hlow3 : ((foldMin state (tLow σ' succ) σ').lowlink
                state).isSome := by
              rw [foldMin_lowlink_state]
              rfl
            have hle3 : tLow (foldMin state (tLow σ' succ) σ') state ≤
                tIdx (foldMin state (tLow σ' succ) σ') state := by
              rw [foldMin_tLow, foldMin_tIdx, htIdx_state, htLow_state]
              exact le_trans (min_le_left _ _) hle
            have hle' : tLow σ' state ≤ tIdx σ' state := by
              rw [htLow_state, htIdx_state]
              exact hle
            have hacc' : tLow σ' state = tIdx σ' state ∨
                (tLow σ' state < tIdx σ' state ∧
                  ∃ z ∈ σ'.stack, tIdx σ' z = tLow σ' state ∧
                    Reaches net state z) := by
              rw [htLow_state, htIdx_state]
              rcases hacc with h5 | ⟨h5, z, hz, hzi, hzr⟩
              · exact Or.inl h5
              · refine Or.inr ⟨h5, z, ?_, ?_, hzr⟩
                · rw [hNE]
                  exact List.mem_append_right _ hz
                · show (σ'.indices z).getD 0 = tLow σ state
                  rw [hIP z (G.stack_visited z hz)]
                  exact hzi
            have hval' : tLow σ' succ < tIdx σ' state →
                ∃ z ∈ σ'.stack, tIdx σ' z = tLow σ' succ ∧
                  Reaches net state z := by
              intro h5
              by_cases h6 : succ ∈ σ'.stack
              · obtain ⟨-, z, hz, hzi, hzr⟩ := hVIN h6
                exact ⟨z, hz, hzi,
                  Relation.ReflTransGen.trans (Reaches.edge hedge) hzr⟩
              · have h7 := hVOUT h6
                have h8 : tIdx σ' state < σ.index := by
                  rw [htIdx_state]
                  exact G.visited_lt state hstate_vis
                omega
            have hacc3 := foldMin_acc hle' hacc' hval'
            obtain ⟨G2, hJI, hJP, hJL, hJR, hJG, ⟨NEW2, hN2, hN2F⟩,
              hJE, hJS, hJD, hJSo, hJA⟩ :=
              ih (foldMin state (tLow σ' succ) σ') σ2 htail G3 hlow3 hle3
                hacc3 h3
            have hidx2 : ∀ t, (σ.indices t).isSome →
                σ2.indices t = σ.indices t :=
              fun t ht => (hJP t (hvis3 t ht)).trans (hIP t ht)
            have hd2 : tLow σ2 state ≤ tLow σ' succ :=
              le_trans (le_trans hJD (le_of_eq (foldMin_tLow _ _ _)))
                (min_le_right _ _)
            have hIdxLift : ∀ y, (σ'.indices y).isSome →
                tIdx σ2 y = tIdx σ' y := by
              intro y hy
              show (σ2.indices y).getD 0 = (σ'.indices y).getD 0
              rw [hJP y hy]
              rfl
            have hStkLift : ∀ y, (σ'.indices y).isSome → y ∈ σ2.stack →
                y ∈ σ'.stack := by
              intro y hy hys
              rcases List.mem_append.mp (hN2 ▸ hys) with h7 | h7
              · exact absurd hy (hN2F y h7)
              · exact h7
            refine ⟨G2, ?_, hidx2, ?_, ?_, ?_, ?_, ?_, ?_, ?_, hJSo, hJA⟩
            · have h5 : σ'.index ≤ σ2.index := hJI
              omega
            · intro t ht htv
              exact ((hJL t ht (hvis3 t htv)).trans
                (foldMin_lowlink_ne _ ht)).trans (hLP t htv)
            · intro w hw
              rcases hJR w hw with h5 | ⟨y, hy, hyr⟩
              · rcases hRW w h5 with h6 | h6
                · exact Or.inl h6
                · exact Or.inr ⟨succ, List.mem_cons_self succ tail, h6⟩
              · exact Or.inr ⟨y, List.mem_cons_of_mem succ hy, hyr⟩
            · intro w hw hw2
              by_cases h5 : (σ'.indices w).isSome
              · rw [hIdxLift w h5]
                exact hFG w hw h5
              · have h6 : σ'.index ≤ tIdx σ2 w := hJG w h5 hw2
                omega
            · refine ⟨NEW2 ++ NEW, ?_, ?_⟩
              · have h5 : σ2.stack = NEW2 ++ (NEW ++ σ.stack) :=
                  hN2.trans (congrArg (fun l => NEW2 ++ l) hNE)
                rw [h5, List.append_assoc]
              · intro w hw
                rcases List.mem_append.mp hw with h5 | h5
                · intro hvs
                  exact hN2F w h5 (hvis3 w hvs)
                · exact hNF w h5
            · intro x hx hx2 y hy
              by_cases h5 : (σ'.indices x).isSome
              · have h6 := hESC x hx h5 y hy
                refine ⟨?_, ?_⟩
                · rw [hJP y h6.1]
                  exact h6.1
                · intro hys
                  obtain ⟨-, h8⟩ := h6.2 (hStkLift y h6.1 hys)
                  rw [hIdxLift y h6.1]
                  exact le_trans hd2 h8
              · exact hJE x h5 hx2 y hy
            · intro y hy
              rcases List.mem_cons.mp hy with h5 | h5
              · subst h5
                refine ⟨?_, ?_⟩
                · rw [hJP y hVS]
                  exact hVS
                · intro hys
                  rw [hIdxLift y hVS, hIS]
                  exact le_trans hd2 hLL
              · exact hJS y h5
            · calc tLow σ2 state
                  ≤ min (tLow σ' state) (tLow σ' succ) :=
                    le_trans hJD (le_of_eq (foldMin_tLow _ _ _))
                _ ≤ tLow σ' state := min_le_left _ _
                _ = tLow σ state := htLow_state
      · rw [if_neg h1] at h
        have hvs : (σ.indices succ).isSome := by
          cases hc : σ.indices succ with
          | none => exact absurd (by rw [hc]; rfl) h1
          | some u => rfl
        by_cases h2 : σ.on_stack succ
        · rw [if_pos h2] at h
          have h3 : AsyncAnalyzerTarjan.scLoop net sc state tail
              (foldMin state (tIdx σ succ) σ) = some σ2 := h
          have hsucc_stk : succ ∈ σ.stack := (G.stack_flag succ).mp h2
          have G3 : TarjanGood net (state :: rest)
              (foldMin state (tIdx σ succ) σ) :=
            lowlink_update_good G hstate_ch _
          have hlow3 : ((foldMin state (tIdx σ succ) σ).lowlink
              state).isSome := by
            rw [foldMin_lowlink_state]
            rfl
          have hle3 : tLow (foldMin state (tIdx σ succ) σ) state ≤
              tIdx (foldMin state (tIdx σ succ) σ) state := by
            rw [foldMin_tLow, foldMin_tIdx]
            exact le_trans (min_le_left _ _) hle
          have hval' : tIdx σ succ < tIdx σ state →
              ∃ z ∈ σ.stack, tIdx σ z = tIdx σ succ ∧ Reaches net state z :=
            fun _ => ⟨succ, hsucc_stk, rfl, Reaches.edge hedge⟩
          have hacc3 := foldMin_acc hle hacc hval'
          obtain ⟨G2, hJI, hJP, hJL, hJR, hJG, ⟨NEW2, hN2, hN2F⟩,
            hJE, hJS, hJD, hJSo, hJA⟩ :=
            ih (foldMin state (tIdx σ succ) σ) σ2 htail G3 hlow3 hle3 hacc3 h3
          refine ⟨G2, hJI, hJP, ?_, ?_, hJG, ⟨NEW2, hN2, hN2F⟩, hJE, ?_,
            ?_, hJSo, hJA⟩
          · intro t ht htv
            exact (hJL t ht htv).trans (foldMin_lowlink_ne _ ht)
          · intro w hw
            rcases hJR w hw with h5 | ⟨y, hy, hyr⟩
            · exact Or.inl h5
            · exact Or.inr ⟨y, List.mem_cons_of_mem succ hy, hyr⟩
          · intro y hy
            rcases List.mem_cons.mp hy with h5 | h5
            · subst h5
              refine ⟨?_, ?_⟩
              · rw [hJP y hvs]
                exact hvs
              · intro hys
                have h10 : tIdx σ2 y = tIdx σ y := by
                  show (σ2.indices y).getD 0 = (σ.indices y).getD 0
                  rw [hJP y hvs]
                  rfl
                rw [h10]
                calc tLow σ2 state
                    ≤ min (tLow σ state) (tIdx σ y) :=
                      le_trans hJD (le_of_eq (foldMin_tLow _ _ _))
                  _ ≤ tIdx σ y := min_le_right _ _
            · exact hJS y h5
          · calc tLow σ2 state
                ≤ min (tLow σ state) (tIdx σ succ) :=
                  le_trans hJD (le_of_eq (foldMin_tLow _ _ _))
              _ ≤ tLow σ state := min_le_left _ _
        · rw [if_neg h2] at h
          have hsucc_not : succ ∉ σ.stack :=
            fun hmem => h2 ((G.stack_flag succ).mpr hmem)
          obtain ⟨G2, hJI, hJP, hJL, hJR, hJG, ⟨NEW2, hN2, hN2F⟩,
            hJE, hJS, hJD, hJSo, hJA⟩ :=
            ih σ σ2 htail G hlow hle hacc h
          refine ⟨G2, hJI, hJP, hJL, ?_, hJG, ⟨NEW2, hN2, hN2F⟩, hJE, ?_,
            hJD, hJSo, hJA⟩
          · intro w hw
            rcases hJR w hw with h5 | ⟨y, hy, hyr⟩
            · exact Or.inl h5
            · exact Or.inr ⟨y, List.mem_cons_of_mem succ hy, hyr⟩
          · intro y hy
            rcases List.mem_cons.mp hy with h5 | h5
            · subst h5
              refine ⟨by rw [hJP y hvs]; exact hvs, ?_⟩
              intro hys
              rcases List.mem_append.mp (hN2 ▸ hys) with h6 | h6
              · exact absurd hvs (hN2F y h6)
              · exact absurd h6 hsucc_not
            · exact hJS y h5

/-- `strongconnect` on a fresh vertex satisfies `SCSpec`, for any ambient
chain and any fuel on which it returns: push, process every successor through
the loop, close the SCC. -/
theorem strongconnect_spec {net : BooleanNetwork} :
    ∀ (fuel : Nat) (ch : List Nat) (v : Nat)
      (σ σf : AsyncAnalyzerTarjan.TarjanState),
      TarjanGood net ch σ → σ.indices v = none →
      AsyncAnalyzerTarjan.strongconnect net fuel v σ = some σf →
      SCSpec net ch v σ σf := by
  intro fuel
  induction fuel with
  | zero =>
      intro ch v σ σf _ _ h
      rw [AsyncAnalyzerTarjan.strongconnect] at h
      exact Option.noConfusion h
  | succ fuel ih =>
      intro ch v σ σf G hv h
      rw [AsyncAnalyzerTarjan.strongconnect] at h
      cases hsl : AsyncAnalyzerTarjan.scLoop net
          (AsyncAnalyzerTarjan.strongconnect net fuel) v
          (net.async_successors v)
          (AsyncAnalyzerTarjan.visitState v σ) with
      | none =>
          rw [hsl] at h
          exact Option.noConfusion h
      | some σ2 =>
          rw [hsl] at h
          have hclose : AsyncAnalyzerTarjan.closeSCC net v σ2 = σf :=
            Option.some.inj h
          have hG1 : TarjanGood net (v :: ch)
              (AsyncAnalyzerTarjan.visitState v σ) := visitGood G hv
          have hidx1v : (AsyncAnalyzerTarjan.visitState v σ).indices v =
              some σ.index := by
            show Function.update σ.indices v (some σ.index) v = _
            rw [Function.update_same]
          have hlow1v : (AsyncAnalyzerTarjan.visitState v σ).lowlink v =
              some σ.index := by
            show Function.update σ.lowlink v (some σ.index) v = _
            rw [Function.update_same]
          have hvis1v : ((AsyncAnalyzerTarjan.visitState v σ).indices
              v).isSome := by
            rw [hidx1v]
            rfl
          have hidx1p : ∀ t, t ≠ v →
              (AsyncAnalyzerTarjan.visitState v σ).indices t = σ.indices t :=
            fun t ht => Function.update_noteq ht _ _
          have hlow1p : ∀ t, t ≠ v →
              (AsyncAnalyzerTarjan.visitState v σ).lowlink t = σ.lowlink t :=
            fun t ht => Function.update_noteq ht _ _
          have hne_vis : ∀ t, (σ.indices t).isSome → t ≠ v := by
            intro t ht he
            rw [he, hv] at ht
            exact Bool.noConfusion ht
          have hvis1 : ∀ t, (σ.indices t).isSome →
              ((AsyncAnalyzerTarjan.visitState v σ).indices t).isSome :=
            fun t ht => by rw [hidx1p t (hne_vis t ht)]; exact ht
          have htLow1v : tLow (AsyncAnalyzerTarjan.visitState v σ) v =
              σ.index := by
            show ((AsyncAnalyzerTarjan.visitState v σ).lowlink v).getD 0 = _
            rw [hlow1v]
            rfl
          have htIdx1v : tIdx (AsyncAnalyzerTarjan.visitState v σ) v =
              σ.index := by
            show ((AsyncAnalyzerTarjan.visitState v σ).indices v).getD 0 = _
            rw [hidx1v]
            rfl
          have hlow1some : ((AsyncAnalyzerTarjan.visitState v σ).lowlink
              v).isSome := by
            rw [hlow1v]
            rfl
          obtain ⟨G2, hJI, hJP, hJL, hJR, hJG, ⟨NEW, hN2, hN2F⟩,
            hJE, hJS, hJD, hJSo, hJA⟩ :=
            scLoop_spec (AsyncAnalyzerTarjan.strongconnect net fuel)
              (fun w σa σb Ga hw hc => ih (v :: ch) w σa σb Ga hw hc)
              (net.async_successors v) (AsyncAnalyzerTarjan.visitState v σ)
              σ2 (fun y hy => hy) hG1 hlow1some
              (by rw [htLow1v, htIdx1v])
              (Or.inl (htLow1v.trans htIdx1v.symm)) hsl
          have hstk2 : σ2.stack = NEW ++ (v :: σ.stack) := hN2
          have hv_stk2 : v ∈ σ2.stack := by
            rw [hstk2]
            exact List.mem_append_right _ (List.mem_cons_self v σ.stack)
          have hvis2 : ∀ t, (σ.indices t).isSome →
              σ2.indices t = σ.indices t :=
            fun t ht => (hJP t (hvis1 t ht)).trans (hidx1p t (hne_vis t ht))
          have hvis2v : σ2.indices v = some σ.index :=
            (hJP v hvis1v).trans hidx1v
          have htIdx2v : tIdx σ2 v = σ.index := by
            show (σ2.indices v).getD 0 = σ.index
            rw [hvis2v]
            rfl
          have hlowle2 : tLow σ2 v ≤ σ.index :=
            le_trans hJD (le_of_eq htLow1v)
          have hch_lt : ∀ c ∈ ch, tIdx σ2 c < tIdx σ2 v := by
            intro c hc
            have h5 : c ∈ σ.stack := G.chain_sub c hc
            have h6 : (σ.indices c).isSome := G.stack_visited c h5
            have h7 : tIdx σ2 c = tIdx σ c := by
              show (σ2.indices c).getD 0 = (σ.indices c).getD 0
              rw [hvis2 c h6]
            rw [h7, htIdx2v]
            exact G.visited_lt c h6
          have hlow_real2 : tLow σ2 v < tIdx σ2 v →
              ∃ z ∈ σ2.stack, tIdx σ2 z = tLow σ2 v ∧ Reaches net v z := by
            intro h5
            rcases hJA with h6 | ⟨-, z, hz, hzi, hzr⟩
            · omega
            · exact ⟨z, hz, hzi, hzr⟩
          have hsucc_r2 : ∀ y ∈ net.async_successors v,
              (σ2.indices y).isSome := fun y hy => (hJS y hy).1
          have hregion_reach : ∀ w ∈ σ2.stack, tIdx σ2 v ≤ tIdx σ2 w →
              Reaches net v w := by
            intro w hw hge
            have hwvis : (σ2.indices w).isSome := G2.stack_visited w hw
            rcases hJR w hwvis with h5 | ⟨y, hy, hyr⟩
            · by_cases h6 : w = v
              · subst h6
                exact Relation.ReflTransGen.refl
              · have h7 : (σ.indices w).isSome := by
                  rw [← hidx1p w h6]
                  exact h5
                have h8 : tIdx σ2 w = tIdx σ w := by
                  show (σ2.indices w).getD 0 = (σ.indices w).getD 0
                  rw [hvis2 w h7]
                have h9 : tIdx σ w < σ.index := G.visited_lt w h7
                rw [htIdx2v] at hge
                omega
            · exact Relation.ReflTransGen.trans (Reaches.edge hy) hyr
          have hescape : ∀ x, (σ2.indices x).isSome →
              tIdx σ2 v ≤ tIdx σ2 x → ∀ y, Edge net x y →
              (σ2.indices y).isSome ∧
                (y ∈ σ2.stack → tLow σ2 v ≤ tIdx σ2 y) := by
            intro x hx hge y hy
            by_cases h6 : x = v
            · subst h6
              exact hJS y hy
            · by_cases h7 : ((AsyncAnalyzerTarjan.visitState v σ).indices
                  x).isSome
              · have h8 : (σ.indices x).isSome := by
                  rw [← hidx1p x h6]
                  exact h7
                have h9 : tIdx σ2 x = tIdx σ x := by
                  show (σ2.indices x).getD 0 = (σ.indices x).getD 0
                  rw [hvis2 x h8]
                have h10 := G.visited_lt x h8
                rw [htIdx2v] at hge
                exact absurd hge (by rw [h9]; omega)
              · exact hJE x h7 hx y hy
          have hlowle2i : tLow σ2 v ≤ tIdx σ2 v := by
            rw [htIdx2v]
            exact hlowle2
          obtain ⟨Gf, hfidx, hflow, hfindex, hfsub, hfdisj⟩ :=
            closeSCC_spec G2 hv_stk2 hch_lt hJSo hlowle2i hlow_real2
              hsucc_r2 hregion_reach hescape
          rw [hclose] at Gf hfidx hflow hfindex hfsub hfdisj
          have hFidx : ∀ t, σf.indices t = σ2.indices t := congrFun hfidx
          have hFlow : ∀ t, σf.lowlink t = σ2.lowlink t := congrFun hflow
          have hFtIdx : ∀ t, tIdx σf t = tIdx σ2 t := by
            intro t
            show (σf.indices t).getD 0 = (σ2.indices t).getD 0
            rw [hFidx t]
          have hFtLow : ∀ t, tLow σf t = tLow σ2 t := by
            intro t
            show (σf.lowlink t).getD 0 = (σ2.lowlink t).getD 0
            rw [hFlow t]
          have hc2 : σ.index < σf.index := by
            have h5 : σ.index + 1 ≤ σ2.index := hJI
            rw [hfindex]
            omega
          have hc3 : ∀ t, (σ.indices t).isSome → σf.indices t = σ.indices t :=
            fun t ht => (hFidx t).trans (hvis2 t ht)
          have hlow2 : ∀ t, (σ.indices t).isSome →
              σ2.lowlink t = σ.lowlink t :=
            fun t ht => (hJL t (hne_vis t ht) (hvis1 t ht)).trans
              (hlow1p t (hne_vis t ht))
          have hc4 : ∀ t, (σ.indices t).isSome → σf.lowlink t = σ.lowlink t :=
            fun t ht => (hFlow t).trans (hlow2 t ht)
          have hc5 : (σf.indices v).isSome := by
            rw [hFidx v, hvis2v]
            rfl
          have hc6 : tIdx σf v = σ.index := (hFtIdx v).trans htIdx2v
          have hc7 : ∀ w, (σf.indices w).isSome →
              (σ.indices w).isSome ∨ Reaches net v w := by
            intro w hw
            rw [hFidx w] at hw
            rcases hJR w hw with h5 | ⟨y, hy, hyr⟩
            · by_cases h6 : w = v
              · subst h6
                exact Or.inr Relation.ReflTransGen.refl
              · refine Or.inl ?_
                rw [← hidx1p w h6]
                exact h5
            · exact Or.inr (Relation.ReflTransGen.trans (Reaches.edge hy) hyr)
          have hc8 : ∀ w, ¬ (σ.indices w).isSome → (σf.indices w).isSome →
              σ.index ≤ tIdx σf w := by
            intro w hw hw2
            rw [hFidx w] at hw2
            rw [hFtIdx w]
            by_cases h6 : w = v
            · subst h6
              rw [htIdx2v]
            · have h7 : ¬ ((AsyncAnalyzerTarjan.visitState v σ).indices
                  w).isSome := by
                rw [hidx1p w h6]
                exact hw
              have h8 : σ.index + 1 ≤ tIdx σ2 w := hJG w h7 hw2
              omega
          have hc11 : (σf.lowlink v).isSome := by
            rw [hFlow v]
            exact hJSo
          have hc12 : tLow σf v ≤ σ.index := by
            rw [hFtLow v]
            exact hlowle2
          have hyyKey : ∀ x, ¬ (σ.indices x).isSome → (σ2.indices x).isSome →
              ∀ y, Edge net x y → (σ2.indices y).isSome ∧
                (y ∈ σ2.stack → tLow σ2 v ≤ tIdx σ2 y) := by
            intro x hx hx2 y hy
            by_cases h6 : x = v
            · subst h6
              exact hJS y hy
            · by_cases h7 : ((AsyncAnalyzerTarjan.visitState v σ).indices
                  x).isSome
              · have h8 : (σ.indices x).isSome := by
                  rw [← hidx1p x h6]
                  exact h7
                exact absurd h8 hx
              · exact hJE x h7 hx2 y hy
          rcases hfdisj with ⟨hlt, hstkeq⟩ | ⟨heq, hvnot, hpop⟩
          · -- non-root: nothing popped
            have hvF : v ∈ σf.stack := by
              rw [hstkeq]
              exact hv_stk2
            refine ⟨Gf, hc2, hc3, hc4, hc5, hc6, hc7, hc8, ?_, ?_, hc11,
              hc12, ?_, ?_⟩
            · refine ⟨NEW ++ [v], ?_, ?_⟩
              · rw [hstkeq, hstk2, List.append_assoc]
                rfl
              · intro w hw
                rcases List.mem_append.mp hw with h5 | h5
                · intro hvs
                  exact hN2F w h5 (hvis1 w hvs)
                · have h6 : w = v := List.mem_singleton.mp h5
                  subst h6
                  intro hvs
                  rw [hv] at hvs
                  exact Bool.noConfusion hvs
            · intro x hx hx2 y hy
              rw [hFidx x] at hx2
              have hyy := hyyKey x hx hx2 y hy
              refine ⟨by rw [hFidx y]; exact hyy.1, ?_⟩
              intro hyF
              rw [hstkeq] at hyF
              refine ⟨hvF, ?_⟩
              rw [hFtLow v, hFtIdx y]
              exact hyy.2 hyF
            · intro _
              constructor
              · rw [hFtLow v, ← htIdx2v]
                exact hlt
              · rcases hJA with h5 | ⟨-, z, hz, hzi, hzr⟩
                · exact absurd h5 (ne_of_lt hlt)
                · refine ⟨z, by rw [hstkeq]; exact hz, ?_, hzr⟩
                  rw [hFtIdx z, hFtLow v]
                  exact hzi
            · intro h5
              exact absurd hvF h5
          · -- root: the region is popped
            have hvNEW : v ∉ NEW := fun hmem => hN2F v hmem hvis1v
            have hFstk : σf.stack = σ.stack := hpop NEW σ.stack hstk2 hvNEW
            refine ⟨Gf, hc2, hc3, hc4, hc5, hc6, hc7, hc8, ?_, ?_, hc11,
              hc12, ?_, ?_⟩
            · refine ⟨[], ?_, fun w hw => absurd hw (List.not_mem_nil w)⟩
              rw [hFstk]
              rfl
            · intro x hx hx2 y hy
              rw [hFidx x] at hx2
              have hyy := hyyKey x hx hx2 y hy
              refine ⟨by rw [hFidx y]; exact hyy.1, ?_⟩
              intro hyF
              rw [hFstk] at hyF
              have hy2 : y ∈ σ2.stack := by
                rw [hstk2]
                exact List.mem_append_right _ (List.mem_cons_of_mem v hyF)
              have hb := hyy.2 hy2
              rw [heq, htIdx2v] at hb
              have hyvis : (σ.indices y).isSome := G.stack_visited y hyF
              have hyidx : tIdx σ2 y = tIdx σ y := by
                show (σ2.indices y).getD 0 = (σ.indices y).getD 0
                rw [hvis2 y hyvis]
              have h11 := G.visited_lt y hyvis
              exact absurd hb (by rw [hyidx]; omega)
            · intro h5
              exact absurd h5 hvnot
            · intro _
              rw [hFtLow v, heq, htIdx2v]

theorem stack_min_exists {σ : AsyncAnalyzerTarjan.TarjanState} :
    ∀ (l : List Nat), l.Pairwise (fun a b => tIdx σ b < tIdx σ a) →
      l ≠ [] → ∃ m ∈ l, ∀ z ∈ l, tIdx σ m ≤ tIdx σ z := by
  intro l
  induction l with
  | nil =>
      intro _ h
      exact absurd rfl h
  | cons a t ih =>
      intro hp _
      rcases List.pairwise_cons.mp hp with ⟨ha, ht⟩
      by_cases hte : t = []
      · subst hte
        refine ⟨a, List.mem_cons_self a [], ?_⟩
        intro z hz
        rw [List.mem_singleton.mp hz]
      · obtain ⟨m, hm, hmin⟩ := ih ht hte
        refine ⟨m, List.mem_cons_of_mem a hm, ?_⟩
        intro z hz
        rcases List.mem_cons.mp hz with h1 | h1
        · subst h1
          exact le_of_lt (ha m hm)
        · exact hmin z h1

/-- With no DFS call in progress, the stack must be empty: a bottom-most
stack vertex would need a strictly lower realizable lowlink. -/
theorem good_nil_stack_empty {net : BooleanNetwork}
    {σ : AsyncAnalyzerTarjan.TarjanState} (G : TarjanGood net [] σ) :
    σ.stack = [] := by
  by_cases he : σ.stack = []
  · exact he
  · obtain ⟨m, hm, hmin⟩ := stack_min_exists σ.stack G.stack_sorted he
    obtain ⟨hlt, z, hz, hzi, -⟩ := G.finished_low m hm (List.not_mem_nil m)
    have := hmin z hz
    omega

theorem initState_good (net : BooleanNetwork) :
    TarjanGood net [] AsyncAnalyzerTarjan.initState :=
  ⟨fun v => by simp [AsyncAnalyzerTarjan.initState],
   List.nodup_nil,
   fun v hv => absurd hv (List.not_mem_nil v),
   List.Pairwise.nil,
   fun v h => absurd h (by simp [AsyncAnalyzerTarjan.initState]),
   fun c hc => absurd hc (List.not_mem_nil c),
   fun v h => absurd h (by simp [AsyncAnalyzerTarjan.initState]),
   fun v h => absurd h (by simp [AsyncAnalyzerTarjan.initState]),
   fun w hw => absurd hw (List.not_mem_nil w),
   fun l hl => absurd hl (List.not_mem_nil l),
   fun v h => absurd h (by simp [AsyncAnalyzerTarjan.initState]),
   List.Pairwise.nil⟩

/-- The outer loop of `analyze` keeps the invariant (with empty chain) and
visits every listed state. -/
theorem analyze_scc_go_good {net : BooleanNetwork} :
    ∀ (states : List Nat) (σ σf : AsyncAnalyzerTarjan.TarjanState),
      TarjanGood net [] σ →
      AsyncAnalyzerTarjan.analyze_scc_go net states σ = some σf →
      TarjanGood net [] σf ∧
      (∀ t, (σ.indices t).isSome → (σf.indices t).isSome) ∧
      (∀ s ∈ states, (σf.indices s).isSome) := by
  intro states
  induction states with
  | nil =>
      intro σ σf G h
      rw [AsyncAnalyzerTarjan.analyze_scc_go] at h
      obtain rfl := Option.some.inj h
      exact ⟨G, fun t ht => ht, fun s hs => absurd hs (List.not_mem_nil s)⟩
  | cons s rest ih =>
      intro σ σf G h
      rw [AsyncAnalyzerTarjan.analyze_scc_go] at h
      by_cases h1 : (σ.indices s).isNone
      · rw [if_pos h1] at h
        cases hcall : AsyncAnalyzerTarjan.strongconnect net
            (2 ^ net.number_of_nodes + 1) s σ with
        | none =>
            rw [hcall] at h
            exact Option.noConfusion h
        | some σ1 =>
            rw [hcall] at h
            obtain ⟨G1, -, hIP, -, hVS, -, -, -, -, -, -, -, -, -⟩ :=
              strongconnect_spec _ [] s σ σ1 G
                (Option.isNone_iff_eq_none.mp h1) hcall
            obtain ⟨Gf, hmono, hall⟩ := ih σ1 σf G1 h
            refine ⟨Gf, ?_, ?_⟩
            · intro t ht
              exact hmono t (by rw [hIP t ht]; exact ht)
            · intro x hx
              rcases List.mem_cons.mp hx with h2 | h2
              · subst h2
                exact hmono x hVS
              · exact hall x h2
      · rw [if_neg h1] at h
        obtain ⟨Gf, hmono, hall⟩ := ih σ σf G h
        refine ⟨Gf, hmono, ?_⟩
        intro x hx
        rcases List.mem_cons.mp hx with h2 | h2
        · subst h2
          refine hmono x ?_
          cases hc : σ.indices x with
          | none => exact absurd (by rw [hc]; rfl) h1
          | some u => rfl
        · exact hall x h2

theorem assignFold_lookup (r : AsyncRecord) :
    ∀ (l : List Nat) (m : Nat → Option AsyncRecord) (s : Nat),
      (l.foldl (fun m state => Function.update m state (some r)) m) s =
        if s ∈ l then some r else m s := by
  intro l
  induction l with
  | nil =>
      intro m s
      rw [List.foldl_nil, if_neg (List.not_mem_nil s)]
  | cons a t ih =>
      intro m s
      rw [List.foldl_cons, ih]
      by_cases hst : s ∈ t
      · rw [if_pos hst, if_pos (List.mem_cons_of_mem a hst)]
      · rw [if_neg hst]
        by_cases hsa : s = a
        · subst hsa
          rw [Function.update_same, if_pos (List.mem_cons_self s t)]
        · rw [Function.update_noteq hsa,
            if_neg (fun h => (List.mem_cons.mp h).elim hsa hst)]

theorem assignAttractorIds_notin :
    ∀ (ls : List (List Nat)) (k : Nat) (m : Nat → Option AsyncRecord)
      (s : Nat), (∀ l ∈ ls, s ∉ l) →
      AsyncAnalyzerTarjan.assignAttractorIds ls k m s = m s := by
  intro ls
  induction ls with
  | nil =>
      intro k m s _
      rfl
  | cons l rest ih =>
      intro k m s hs
      rw [AsyncAnalyzerTarjan.assignAttractorIds,
        ih _ _ s (fun l2 hl2 => hs l2 (List.mem_cons_of_mem l hl2)),
        assignFold_lookup, if_neg (hs l (List.mem_cons_self l rest))]

theorem assignAttractorIds_mem :
    ∀ (ls : List (List Nat)) (k : Nat) (m : Nat → Option AsyncRecord)
      (i : Nat) (s : Nat), i < ls.length → s ∈ ls.getD i [] →
      ls.Pairwise (fun l1 l2 => ∀ w, w ∈ l1 → w ∉ l2) →
      AsyncAnalyzerTarjan.assignAttractorIds ls k m s =
        some ⟨true, some (k + i)⟩ := by
  intro ls
  induction ls with
  | nil =>
      intro k m i s hi _ _
      exact absurd hi (by simp)
  | cons l rest ih =>
      intro k m i s hi hs hp
      rcases List.pairwise_cons.mp hp with ⟨hl, hrest⟩
      rw [AsyncAnalyzerTarjan.assignAttractorIds]
      cases i with
      | zero =>
          have hsl : s ∈ l := hs
          have hnot : ∀ l2 ∈ rest, s ∉ l2 := fun l2 hl2 => hl l2 hl2 s hsl
          rw [assignAttractorIds_notin rest _ _ s hnot, assignFold_lookup,
            if_pos hsl, Nat.add_zero]
      | succ j =>
          have hsj : s ∈ rest.getD j [] := hs
          have hij : j < rest.length := by
            have h2 : j + 1 < rest.length + 1 := hi
            omega
          rw [ih (k + 1) _ j s hij hsj hrest,
            show k + 1 + j = k + (j + 1) from by omega]

theorem markFold_val_preserve :
    ∀ (l : List Nat) (m : Nat → Option AsyncRecord) (s : Nat),
      (m s).isSome →
      (l.foldl (fun m state =>
          if (m state).isSome then m
          else Function.update m state (some ⟨false, none⟩)) m) s = m s := by
  intro l
  induction l with
  | nil =>
      intro m s _
      rfl
  | cons x rest ih =>
      intro m s h
      rw [List.foldl_cons]
      by_cases hx : (m x).isSome
      · rw [if_pos hx]
        exact ih m s h
      · rw [if_neg hx]
        have hsx : s ≠ x := fun he => hx (he ▸ h)
        rw [ih _ s (by rw [Function.update_noteq hsx]; exact h),
          Function.update_noteq hsx]

theorem markFold_fresh :
    ∀ (l : List Nat) (m : Nat → Option AsyncRecord) (s : Nat),
      s ∈ l → ¬ (m s).isSome →
      (l.foldl (fun m state =>
          if (m state).isSome then m
          else Function.update m state (some ⟨false, none⟩)) m) s =
        some ⟨false, none⟩ := by
  intro l
  induction l with
  | nil =>
      intro m s h _
      exact absurd h (List.not_mem_nil s)
  | cons x rest ih =>
      intro m s h hns
      rw [List.foldl_cons]
      by_cases hsx : s = x
      · subst hsx
        rw [if_neg hns,
          markFold_val_preserve rest _ s (by rw [Function.update_same]; rfl),
          Function.update_same]
      · have hsr : s ∈ rest := (List.mem_cons.mp h).resolve_left hsx
        by_cases hx : (m x).isSome
        · rw [if_pos hx]
          exact ih m s hsr hns
        · rw [if_neg hx]
          exact ih _ s hsr (by rw [Function.update_noteq hsx]; exact hns)

theorem markTransients_preserve {num_states : Nat}
    (m : Nat → Option AsyncRecord) {s : Nat} (h : (m s).isSome) :
    AsyncAnalyzerTarjan.markTransients num_states m s = m s :=
  markFold_val_preserve (List.range num_states) m s h

theorem markTransients_fresh {num_states : Nat}
    (m : Nat → Option AsyncRecord) {s : Nat} (hs : s < num_states)
    (h : ¬ (m s).isSome) :
    AsyncAnalyzerTarjan.markTransients num_states m s = some ⟨false, none⟩ :=
  markFold_fresh (List.range num_states) m s (List.mem_range.mpr hs) h

/-- **C2**: after the asynchronous (Tarjan) analysis of a well-formed
network, a state's record has `is_attractor = true` exactly when the state's
strongly connected component of the asynchronous successor graph is terminal
(no member has a successor outside it); consequently every asynchronous
successor of an attractor state is itself marked an attractor with the same
`attractor_id`. -/
theorem tarjan_attractor_iff_terminal_scc {net : BooleanNetwork}
    (hwf : WellFormed net) :
    ∃ res, AsyncAnalyzerTarjan.analyze net = some res ∧
      ∀ s, s < 2 ^ net.number_of_nodes →
        ∃ r, res.state_info s = some r ∧
          (r.is_attractor = true ↔
            ∀ t u, InSameSCC net s t → Edge net t u → InSameSCC net s u) ∧
          (r.is_attractor = true →
            ∀ u ∈ net.async_successors s,
              ∃ ru, res.state_info u = some ru ∧
                ru.is_attractor = true ∧ ru.attractor_id = r.attractor_id) := by
  obtain ⟨σf, hT⟩ := analyze_scc_go_total hwf
    (List.range (2 ^ net.number_of_nodes)) AsyncAnalyzerTarjan.initState
    (fun x hx => List.mem_range.mp hx)
  obtain ⟨Gf, -, hall⟩ :=
    analyze_scc_go_good _ _ _ (initState_good net) hT
  have hstk : σf.stack = [] := good_nil_stack_empty Gf
  refine ⟨{ state_info := AsyncAnalyzerTarjan.markTransients
              (2 ^ net.number_of_nodes)
              (AsyncAnalyzerTarjan.assignAttractorIds σf.attractors 0
                fun _ => none)
            attractors := σf.attractors }, ?_, ?_⟩
  · rw [AsyncAnalyzerTarjan.analyze, hT]
  · intro s hs
    have hvs : (σf.indices s).isSome := hall s (List.mem_range.mpr hs)
    have hsnot : s ∉ σf.stack := by
      rw [hstk]
      exact List.not_mem_nil s
    have hterm := Gf.attr_complete s hvs hsnot
    by_cases hin : ∃ l ∈ σf.attractors, s ∈ l
    · obtain ⟨l, hl, hsl⟩ := hin
      obtain ⟨⟨i, hi⟩, hgi⟩ := List.mem_iff_get.mp hl
      have hgets : σf.attractors.getD i [] = l := by
        rw [List.getD_eq_getElem _ _ hi]
        exact hgi
      have hA : AsyncAnalyzerTarjan.assignAttractorIds σf.attractors 0
          (fun _ => none) s = some ⟨true, some (0 + i)⟩ :=
        assignAttractorIds_mem _ 0 _ i s hi (by rw [hgets]; exact hsl)
          Gf.attr_disjoint
      have h1 : AsyncAnalyzerTarjan.assignAttractorIds σf.attractors 0
          (fun _ => none) s = some ⟨true, some i⟩ := by
        rw [hA, Nat.zero_add]
      refine ⟨⟨true, some i⟩,
        (markTransients_preserve _ (by rw [h1]; rfl)).trans h1, ?_, ?_⟩
      · exact iff_of_true rfl (hterm.mpr ⟨l, hl, hsl⟩)
      · intro _ u hu
        have hsccu : InSameSCC net s u :=
          (hterm.mpr ⟨l, hl, hsl⟩) s u (InSameSCC.refl net s) hu
        have hul : u ∈ l :=
          ((Gf.attr_mem l hl s hsl).2.2 u).mpr hsccu
        have hAu : AsyncAnalyzerTarjan.assignAttractorIds σf.attractors 0
            (fun _ => none) u = some ⟨true, some (0 + i)⟩ :=
          assignAttractorIds_mem _ 0 _ i u hi (by rw [hgets]; exact hul)
            Gf.attr_disjoint
        have h1u : AsyncAnalyzerTarjan.assignAttractorIds σf.attractors 0
            (fun _ => none) u = some ⟨true, some i⟩ := by
          rw [hAu, Nat.zero_add]
        exact ⟨⟨true, some i⟩,
          (markTransients_preserve _ (by rw [h1u]; rfl)).trans h1u, rfl, rfl⟩
    · have hnotin : ∀ l ∈ σf.attractors, s ∉ l :=
        fun l hl hsl => hin ⟨l, hl, hsl⟩
      have hA : AsyncAnalyzerTarjan.assignAttractorIds σf.attractors 0
          (fun _ => none) s = none :=
        assignAttractorIds_notin _ _ _ s hnotin
      refine ⟨⟨false, none⟩,
        markTransients_fresh _ hs (by rw [hA]; exact fun h => Bool.noConfusion h),
        ?_, ?_⟩
      · refine iff_of_false (fun h => Bool.noConfusion h) ?_
        intro h5
        exact hin (hterm.mp h5)
      · intro h5
        exact absurd h5 (fun h => Bool.noConfusion h)

/-- Witness for `tarjan_attractor_iff_terminal_scc` on the concrete 1-node
network with a single constant node. -/
theorem tarjan_attractor_iff_terminal_scc_witness :
    WellFormed (BooleanNetwork.init 1 [([], [0])]) ∧
    (∃ res, AsyncAnalyzerTarjan.analyze (BooleanNetwork.init 1 [([], [0])]) =
        some res ∧
      ∀ s, s < 2 ^ (BooleanNetwork.init 1 [([], [0])]).number_of_nodes →
        ∃ r, res.state_info s = some r ∧
          (r.is_attractor = true ↔
            ∀ t u, InSameSCC (BooleanNetwork.init 1 [([], [0])]) s t →
              Edge (BooleanNetwork.init 1 [([], [0])]) t u →
              InSameSCC (BooleanNetwork.init 1 [([], [0])]) s u) ∧
          (r.is_attractor = true →
            ∀ u ∈ (BooleanNetwork.init 1 [([], [0])]).async_successors s,
              ∃ ru, res.state_info u = some ru ∧
                ru.is_attractor = true ∧
                ru.attractor_id = r.attractor_id)) :=
  ⟨by decide, tarjan_attractor_iff_terminal_scc (by decide)⟩

end BoolNet
